import Mathlib

/-!
Verification of the structured recovery pipeline of AskMyDoc (src/main.py).

The pipeline under study is `validate_and_parse_json` (src/main.py:86-113)
together with its helpers `clean_and_fix_json` (src/main.py:32-63) and
`extract_json_manually` (src/main.py:65-84).  This file gives a shallow
embedding of those functions over Lean strings (`String.data : List Char`)
and settles the frozen claims about them.

Modelling conventions:
* Python strings are modelled as Lean `String`/`List Char` (sequences of
  Unicode scalar values; Python strings containing lone surrogates are not
  representable and `\uXXXX` escapes denoting lone surrogates are treated
  as parse failures — a documented modelling limit, irrelevant to every
  claim here).
* `json.loads` is modelled by an executable recursive-descent parser
  (`json_loadsL` below) following CPython's `json` module: JSON whitespace
  is exactly space/tab/newline/carriage-return, objects are built with
  Python-dict insertion semantics (first position kept, last value wins),
  numbers keep their source lexeme (CPython turns them into int/float; the
  lexeme determines everything the program under study observes: zeroness
  for truthiness, and the serialized form), `NaN`/`Infinity`/`-Infinity`
  are accepted as CPython does by default, and strings decode the standard
  escapes including `\uXXXX` surrogate pairs.
* Python character classes (`str.strip`, `\s`, `\d`) are modelled by their
  ASCII parts (CPython additionally accepts some non-ASCII whitespace and
  digits; no claim depends on those).
* The regular-expression substitutions of `clean_and_fix_json` are
  modelled by direct left-to-right scanners implementing `re.sub`'s
  leftmost, non-overlapping match policy for those three concrete
  patterns; the derivation of each scanner from its pattern is documented
  at its definition.
-/

/-- The only Python exception the pipeline can actually leak: the
`TypeError` raised by `"perguntas" in x` when `x` is not a container
(src/main.py:100 is outside every `try`). -/
inductive PyErr where
  | typeError
deriving DecidableEq, Repr

/-- Result values of `json.loads`, as observed by the program: `None`,
booleans, numbers (kept as their source lexeme, see module docstring),
strings, lists and dicts (association lists with Python-dict insertion
semantics, so keys are distinct by construction). -/
inductive JsonValue where
  | null
  | bool (b : Bool)
  | num (lex : String)
  | str (s : String)
  | arr (elems : List JsonValue)
  | obj (fields : List (String × JsonValue))

/-- ASCII part of the character class stripped by Python `str.strip()` and
matched by `\s` in `re` patterns: space, tab, newline, carriage return,
vertical tab, form feed. -/
def pySpace (c : Char) : Bool :=
  c = ' ' || c = '\t' || c = '\n' || c = '\r' || c = '\x0b' || c = '\x0c'

/-- JSON whitespace as used by CPython's `json` module: exactly
space, tab, newline, carriage return. -/
def jsonWs (c : Char) : Bool :=
  c = ' ' || c = '\t' || c = '\n' || c = '\r'

/-- `pat.isPrefixOf l` for char lists, written out. -/
def leadsWith : List Char → List Char → Bool
  | [], _ => true
  | _ :: _, [] => false
  | p :: ps, c :: cs => p = c && leadsWith ps cs

/-- Substring test: Python `needle in hay` for strings. -/
def containsSub (needle : List Char) : List Char → Bool
  | [] => leadsWith needle []
  | c :: t => leadsWith needle (c :: t) || containsSub needle t

/-- Python `str.strip()` (src/main.py:38): drop leading and trailing
whitespace. -/
def pyStrip (l : List Char) : List Char :=
  ((l.dropWhile pySpace).reverse.dropWhile pySpace).reverse

/-- Index of the first occurrence of `c` (Python `str.find`, `none` for -1). -/
def firstIdx (c : Char) : List Char → Option Nat
  | [] => none
  | x :: xs => if x = c then some 0 else (firstIdx c xs).map (· + 1)

/-- Index of the last occurrence of `c` (Python `str.rfind`, `none` for -1). -/
def lastIdx (c : Char) (l : List Char) : Option Nat :=
  (firstIdx c l.reverse).map (fun i => l.length - 1 - i)

/-- src/main.py:42-46: slice to `cleaned[start:end+1]` where `start` is the
first `{` and `end` the last `}`, skipped unless both exist and
`start < end`. -/
def sliceBraces (l : List Char) : List Char :=
  match firstIdx '{' l, lastIdx '}' l with
  | some s, some e => if s < e then (l.drop s).take (e + 1 - s) else l
  | _, _ => l

/-- src/main.py:50: `re.sub(r'"([^"]*?)$', r'"\1"', cleaned, flags=re.MULTILINE)`.

Derivation of the scanner from the pattern: with `re.MULTILINE`, `$`
matches before every `'\n'` and at the end of the string.  The lazy
`[^"]*?` grows one character at a time, so a match attempt starting at a
`'"'` succeeds exactly when no further `'"'` occurs before the next
newline (or end); the lazy group then stops at that first `$` position,
so a match never crosses a newline even though `[^"]` could consume one.
The replacement `"\1"` reproduces the match and appends one `'"'`.
`re.sub` scans left to right, does not rescan replacements, and resumes
after each match (i.e. at the newline/end position). -/
def subUGo : Nat → List Char → List Char
  | 0, l => l
  | _ + 1, [] => []
  | fuel + 1, c :: rest =>
    if c = '"' && !((rest.takeWhile (· ≠ '\n')).contains '"') then
      '"' :: rest.takeWhile (· ≠ '\n') ++ '"' ::
        subUGo fuel (rest.drop (rest.takeWhile (· ≠ '\n')).length)
    else
      c :: subUGo fuel rest

/-- The substitution of src/main.py:50 (see `subUGo`); the fuel
`l.length` never runs out because every scanner step strictly consumes
input. -/
def subU (l : List Char) : List Char :=
  subUGo l.length l

/-- src/main.py:53: `re.sub(r'"\s*\n\s*"', '",\n  "', cleaned)`.

A match attempt starting at a `'"'` succeeds exactly when the maximal run
of `\s` characters after it contains at least one `'\n'` and is followed
by another `'"'` (whitespace characters cannot satisfy the final `"`, so
backtracking inside the run never helps).  The whole span up to and
including the closing quote is replaced by `",\n  "`; scanning resumes
after the replaced span. -/
def subCommaNlGo : Nat → List Char → List Char
  | 0, l => l
  | _ + 1, [] => []
  | fuel + 1, c :: rest =>
    if c = '"' && (rest.takeWhile pySpace).contains '\n' &&
        (rest.drop (rest.takeWhile pySpace).length).head? = some '"' then
      '"' :: ',' :: '\n' :: ' ' :: ' ' :: '"' ::
        subCommaNlGo fuel (rest.drop ((rest.takeWhile pySpace).length + 1))
    else
      c :: subCommaNlGo fuel rest

/-- The substitution of src/main.py:53 (see `subCommaNlGo`). -/
def subCommaNl (l : List Char) : List Char :=
  subCommaNlGo l.length l

/-- src/main.py:56: `re.sub(r',(\s*})', r'\1', cleaned)`.

A match attempt starting at a `','` succeeds exactly when the maximal run
of `\s` characters after it is followed by `'}'`; the comma is dropped and
the run plus brace kept.  Scanning resumes after the brace. -/
def subTrailCommaGo : Nat → List Char → List Char
  | 0, l => l
  | _ + 1, [] => []
  | fuel + 1, c :: rest =>
    if c = ',' && (rest.drop (rest.takeWhile pySpace).length).head? = some '}' then
      rest.takeWhile pySpace ++ '}' ::
        subTrailCommaGo fuel (rest.drop ((rest.takeWhile pySpace).length + 1))
    else
      c :: subTrailCommaGo fuel rest

/-- The substitution of src/main.py:56 (see `subTrailCommaGo`). -/
def subTrailComma (l : List Char) : List Char :=
  subTrailCommaGo l.length l

/-- The text produced by the Tier-2 cleanup (src/main.py:38-56) right
before the reparse attempt of src/main.py:59: strip, brace-slice, close
quotes, insert commas, drop trailing commas — in that order, each step on
the output of the previous. -/
def cleanTransform (s : String) : List Char :=
  subTrailComma (subCommaNl (subU (sliceBraces (pyStrip s.data))))

/-! ## The `json.loads` model -/

/-- Value of one hex digit, as accepted in `\uXXXX` escapes. -/
def hexVal (c : Char) : Option Nat :=
  if '0' ≤ c && c ≤ '9' then some (c.toNat - 48)
  else if 'a' ≤ c && c ≤ 'f' then some (c.toNat - 87)
  else if 'A' ≤ c && c ≤ 'F' then some (c.toNat - 55)
  else none

/-- Decoded character of a single-character escape (`\"`, `\\`, `\/`,
`\b`, `\f`, `\n`, `\r`, `\t`); `\uXXXX` is handled separately. -/
def escChar (e : Char) : Option Char :=
  if e = '"' then some '"'
  else if e = '\\' then some '\\'
  else if e = '/' then some '/'
  else if e = 'b' then some '\x08'
  else if e = 'f' then some '\x0c'
  else if e = 'n' then some '\n'
  else if e = 'r' then some '\r'
  else if e = 't' then some '\t'
  else none

/-- Body of a JSON string, after the opening quote: returns the decoded
characters and the text after the closing quote.  Mirrors CPython's strict
`py_scanstring`: unescaped control characters (< 0x20) are an error,
`\uXXXX` surrogate pairs are combined.  A `\uXXXX` escape denoting a lone
surrogate (which CPython would keep) is unrepresentable in a Lean `Char`
and is treated as a failure — a documented modelling limit. -/
def parseStrGo : Nat → List Char → Option (List Char × List Char)
  | 0, _ => none
  | _ + 1, [] => none
  | fuel + 1, c :: r =>
    if c = '"' then some ([], r)
    else if c = '\\' then
      match r with
      | [] => none
      | 'u' :: a :: b :: cc :: d :: r3 =>
        (hexVal a).bind fun va =>
        (hexVal b).bind fun vb =>
        (hexVal cc).bind fun vc =>
        (hexVal d).bind fun vd =>
        let v := ((va * 16 + vb) * 16 + vc) * 16 + vd
        if 0xD800 ≤ v ∧ v ≤ 0xDBFF then
          match r3 with
          | '\\' :: 'u' :: a2 :: b2 :: c2 :: d2 :: r5 =>
            (hexVal a2).bind fun wa =>
            (hexVal b2).bind fun wb =>
            (hexVal c2).bind fun wc =>
            (hexVal d2).bind fun wd =>
            let w := ((wa * 16 + wb) * 16 + wc) * 16 + wd
            if 0xDC00 ≤ w ∧ w ≤ 0xDFFF then
              (parseStrGo fuel r5).map (fun p =>
                (Char.ofNat (0x10000 + (v - 0xD800) * 0x400 + (w - 0xDC00)) :: p.1, p.2))
            else none
          | _ => none
        else if 0xDC00 ≤ v ∧ v ≤ 0xDFFF then none
        else (parseStrGo fuel r3).map (fun p => (Char.ofNat v :: p.1, p.2))
      | 'u' :: _ => none
      | e :: r2 =>
        match escChar e with
        | some dch => (parseStrGo fuel r2).map (fun p => (dch :: p.1, p.2))
        | none => none
    else if c.toNat < 0x20 then none
    else (parseStrGo fuel r).map (fun p => (c :: p.1, p.2))

/-- `parseStrGo` with enough fuel (every step strictly consumes input). -/
def parseStringBody (l : List Char) : Option (List Char × List Char) :=
  parseStrGo l.length l

/-- Optional fractional part `(\.\d+)?` of CPython's NUMBER_RE: a dot must
be followed by at least one digit, otherwise the group matches nothing. -/
def fracPart : List Char → List Char × List Char
  | '.' :: r =>
    let ds := r.takeWhile Char.isDigit
    if ds.isEmpty then ([], '.' :: r) else ('.' :: ds, r.drop ds.length)
  | l => ([], l)

/-- Optional exponent part `([eE][-+]?\d+)?` of CPython's NUMBER_RE. -/
def expPart : List Char → List Char × List Char
  | e :: r =>
    if e = 'e' || e = 'E' then
      let sr : List Char × List Char :=
        match r with
        | s :: r2 => if s = '+' || s = '-' then ([s], r2) else ([], s :: r2)
        | [] => ([], [])
      let ds := sr.2.takeWhile Char.isDigit
      if ds.isEmpty then ([], e :: r) else (e :: (sr.1 ++ ds), sr.2.drop ds.length)
    else ([], e :: r)
  | [] => ([], [])

/-- The unsigned part `(0|[1-9]\d*)(\.\d+)?([eE][-+]?\d+)?` of CPython's
NUMBER_RE, matched at the current position: lexeme and rest. -/
def numBody : List Char → Option (List Char × List Char)
  | '0' :: r1 =>
    let f := fracPart r1
    let e := expPart f.2
    some ('0' :: (f.1 ++ e.1), e.2)
  | c :: r1 =>
    if c.isDigit then
      let ds := r1.takeWhile Char.isDigit
      let f := fracPart (r1.drop ds.length)
      let e := expPart f.2
      some (c :: (ds ++ f.1 ++ e.1), e.2)
    else none
  | [] => none

/-- The optional leading `-` of NUMBER_RE, in front of `numBody`. -/
def numRe (l : List Char) : Option (List Char × List Char) :=
  match l with
  | '-' :: r => (numBody r).map (fun p => ('-' :: p.1, p.2))
  | _ => numBody l

/-- Number scanning as done by CPython's scanner: the NUMBER_RE first,
then the `NaN` / `Infinity` / `-Infinity` constants (accepted by default). -/
def parseNumber (l : List Char) : Option (List Char × List Char) :=
  match numRe l with
  | some p => some p
  | none =>
    if leadsWith ['N','a','N'] l then some (['N','a','N'], l.drop 3)
    else if leadsWith ['I','n','f','i','n','i','t','y'] l then
      some (['I','n','f','i','n','i','t','y'], l.drop 8)
    else if leadsWith ['-','I','n','f','i','n','i','t','y'] l then
      some (['-','I','n','f','i','n','i','t','y'], l.drop 9)
    else none

/-- Python `dict` assignment `d[k] = v`: replaces the value in place if the
key exists (keeping its position), otherwise appends the pair. -/
def insertPair (d : List (String × JsonValue)) (k : String) (v : JsonValue) :
    List (String × JsonValue) :=
  if d.any (fun p => p.1 == k) then d.map (fun p => if p.1 == k then (k, v) else p)
  else d ++ [(k, v)]

mutual
/-- One JSON value at the current position, mirroring CPython's
`scan_once` dispatch order: string, object, array, `null`, `true`,
`false`, number (incl. `NaN`/`Infinity`/`-Infinity`).  The fuel argument
only forces termination: every mutual call strictly consumes input
between two consecutive fuel decrements except the zero-cost
`parseValue → parseElems`/`parseMembers` handoffs, so a chain of `n`
decrements always consumes at least `(n - 2) / 2` characters; the top
entry point supplies `4 * length + 8` fuel, which therefore never runs
out on the way to an answer. -/
def parseValue : Nat → List Char → Option (JsonValue × List Char)
  | 0, _ => none
  | fuel + 1, l =>
    match l with
    | [] => none
    | c :: r =>
      if c = '"' then
        (parseStringBody r).map (fun p => (JsonValue.str (String.mk p.1), p.2))
      else if c = '{' then
        match r.dropWhile jsonWs with
        | '}' :: r2 => some (JsonValue.obj [], r2)
        | r2 => (parseMembers fuel r2 []).map (fun p => (JsonValue.obj p.1, p.2))
      else if c = '[' then
        match r.dropWhile jsonWs with
        | ']' :: r2 => some (JsonValue.arr [], r2)
        | r2 => (parseElems fuel r2 []).map (fun p => (JsonValue.arr p.1, p.2))
      else if leadsWith ['n','u','l','l'] l then some (JsonValue.null, l.drop 4)
      else if leadsWith ['t','r','u','e'] l then some (JsonValue.bool true, l.drop 4)
      else if leadsWith ['f','a','l','s','e'] l then some (JsonValue.bool false, l.drop 5)
      else
        (parseNumber l).map (fun p => (JsonValue.num (String.mk p.1), p.2))

/-- Members of an object after its opening brace and whitespace, with the
accumulated Python dict; mirrors CPython's `JSONObject` loop. -/
def parseMembers : Nat → List Char → List (String × JsonValue) →
    Option (List (String × JsonValue) × List Char)
  | 0, _, _ => none
  | fuel + 1, l, acc =>
    match l with
    | '"' :: r =>
      match parseStringBody r with
      | none => none
      | some (k, r1) =>
        match r1.dropWhile jsonWs with
        | ':' :: r2 =>
          match parseValue fuel (r2.dropWhile jsonWs) with
          | none => none
          | some (v, r3) =>
            match r3.dropWhile jsonWs with
            | '}' :: r4 => some (insertPair acc (String.mk k) v, r4)
            | ',' :: r4 => parseMembers fuel (r4.dropWhile jsonWs) (insertPair acc (String.mk k) v)
            | _ => none
        | _ => none
    | _ => none

/-- Elements of an array after its opening bracket and whitespace;
mirrors CPython's `JSONArray` loop. -/
def parseElems : Nat → List Char → List JsonValue →
    Option (List JsonValue × List Char)
  | 0, _, _ => none
  | fuel + 1, l, acc =>
    match parseValue fuel l with
    | none => none
    | some (v, r) =>
      match r.dropWhile jsonWs with
      | ']' :: r2 => some (acc ++ [v], r2)
      | ',' :: r2 => parseElems fuel (r2.dropWhile jsonWs) (acc ++ [v])
      | _ => none
end

/-- `json.loads` on a char list: skip leading whitespace, scan one value,
require only whitespace after it.  `none` models `json.loads` raising. -/
def json_loadsL (l : List Char) : Option JsonValue :=
  let l1 := l.dropWhile jsonWs
  match parseValue (4 * l1.length + 8) l1 with
  | some (v, rest) => if rest.dropWhile jsonWs = [] then some v else none
  | none => none

/-! ## Python `in` and truthiness -/

/-- Key membership in a Python dict. -/
def keyMem (fs : List (String × JsonValue)) (k : String) : Bool :=
  fs.any (fun p => p.1 == k)

/-- Python `needle in x` for the values `json.loads` can produce: key
test for dicts, element equality for lists, substring test for strings,
`TypeError` for `None`/bool/numbers (not iterable). -/
def pyIn (needle : String) : JsonValue → Except PyErr Bool
  | .obj fs => .ok (keyMem fs needle)
  | .arr xs => .ok (xs.any (fun x => match x with | .str t => t == needle | _ => false))
  | .str t => .ok (containsSub needle.data t.data)
  | _ => .error .typeError

/-- Whether a number lexeme denotes zero: it has a digit and every digit
of the mantissa is `0` (the exponent never makes a nonzero mantissa zero;
`NaN`/`Infinity` have no digits and are truthy).  Floating-point underflow
of extreme exponents is not modelled. -/
def numIsZero (lex : String) : Bool :=
  let m := lex.data.takeWhile (fun c => c != 'e' && c != 'E')
  m.any Char.isDigit && m.all (fun c => !c.isDigit || c = '0')

/-- Python truthiness of a `json.loads` result. -/
def truthy : JsonValue → Bool
  | .null => false
  | .bool b => b
  | .num lex => !numIsZero lex
  | .str t => !t.data.isEmpty
  | .arr xs => !xs.isEmpty
  | .obj fs => !fs.isEmpty

/-! ## The pipeline (src/main.py:86-113) -/

/-- Tentativa 1 (src/main.py:91-96): `json.loads(response_text)` and the
membership test `"perguntas" in result`, the whole attempt wrapped in a
bare `try/except: pass` — so a parse error, a `TypeError` from `in`, and
a `False` membership all fall through (`none`). -/
def tier1 (s : String) : Option JsonValue :=
  match json_loadsL s.data with
  | some r =>
    match pyIn "perguntas" r with
    | .ok true => some r
    | _ => none
  | none => none

/-- `clean_and_fix_json` (src/main.py:32-63): the five-step cleanup
followed by `json.loads`, everything inside `try/except` returning `None`. -/
def clean_and_fix_json (s : String) : Option JsonValue :=
  json_loadsL (cleanTransform s)

/-- Tentativa 2 (src/main.py:99-101):
`if cleaned_result and "perguntas" in cleaned_result: return cleaned_result`.
This line is *outside* any `try`: when `cleaned_result` is truthy but not
a container, the membership test raises an uncaught `TypeError`
(`.error`).  `.ok (some v)` is a Tier-2 success, `.ok none` falls through. -/
def tier2 (s : String) : Except PyErr (Option JsonValue) :=
  match clean_and_fix_json s with
  | some v =>
    if truthy v then
      match pyIn "perguntas" v with
      | .ok true => .ok (some v)
      | .ok false => .ok none
      | .error e => .error e
    else .ok none
  | none => .ok none

/-- One attempt of the regex `"(pergunta_\d+)"\s*:\s*"([^"]*)"`
(src/main.py:72) at a position whose first character is `c`: on success,
the key (taken verbatim), the value, and how many characters of `rest`
the match consumed.  `\d+` and `[^"]*` munch maximally; giving characters
back can never satisfy the following literal, so the munch is exact. -/
def matchPergunta (c : Char) (rest : List Char) : Option (String × String × Nat) :=
  if c = '"' && leadsWith ['p','e','r','g','u','n','t','a','_'] rest then
    let r1 := rest.drop 9
    let digs := r1.takeWhile Char.isDigit
    if digs.isEmpty then none
    else
      match r1.drop digs.length with
      | '"' :: r3 =>
        let ws1 := r3.takeWhile pySpace
        match r3.drop ws1.length with
        | ':' :: r4 =>
          let ws2 := r4.takeWhile pySpace
          match r4.drop ws2.length with
          | '"' :: r5 =>
            let v := r5.takeWhile (· != '"')
            match r5.drop v.length with
            | '"' :: _ =>
              some (String.mk (['p','e','r','g','u','n','t','a','_'] ++ digs),
                    String.mk v,
                    9 + digs.length + 1 + ws1.length + 1 + ws2.length + 1 + v.length + 1)
            | _ => none
          | _ => none
        | _ => none
      | _ => none
  else none

/-- `re.findall` of the Tier-3 pattern: leftmost non-overlapping matches
in text order, keys verbatim. -/
def findallGo : Nat → List Char → List (String × String)
  | 0, _ => []
  | _ + 1, [] => []
  | fuel + 1, c :: rest =>
    match matchPergunta c rest with
    | some (k, v, n) => (k, v) :: findallGo fuel (rest.drop n)
    | none => findallGo fuel rest

/-- `findallGo` with enough fuel (every step strictly consumes input). -/
def findallPerguntas (l : List Char) : List (String × String) :=
  findallGo l.length l

/-- Python `dict` assignment for string pairs (`questions[key] = value`,
src/main.py:76). -/
def insertStrPair (d : List (String × String)) (kv : String × String) :
    List (String × String) :=
  if d.any (fun p => p.1 == kv.1) then d.map (fun p => if p.1 == kv.1 then kv else p)
  else d ++ [kv]

/-- `extract_json_manually` (src/main.py:65-84): collect all pattern
matches into a dict; return `{"perguntas": questions}` if non-empty,
`None` otherwise.  Nothing in the body can raise, so the `except` branch
is dead. -/
def extract_json_manually (s : String) : Option JsonValue :=
  let qs := (findallPerguntas s.data).foldl insertStrPair []
  if qs.isEmpty then none
  else some (.obj [("perguntas", .obj (qs.map (fun p => (p.1, JsonValue.str p.2))))])

/-- The terminal result of src/main.py:109-113, returned when every tier
fails: a diagnostic dict carrying the original text under `"raw"`. -/
def errorDict (s : String) : JsonValue :=
  .obj [("erro", .str "Não foi possível fazer parse do JSON"),
        ("raw", .str s),
        ("sugestao", .str "O modelo pode estar retornando texto incompleto ou malformado")]

/-- `validate_and_parse_json` (src/main.py:86-113): Tier 1, then Tier 2
(whose membership test may raise), then Tier 3, then the diagnostic dict. -/
def validate_and_parse_json (s : String) : Except PyErr JsonValue :=
  match tier1 s with
  | some r => .ok r
  | none =>
    match tier2 s with
    | .error e => .error e
    | .ok (some v) => .ok v
    | .ok none =>
      match extract_json_manually s with
      | some m => .ok m
      | none => .ok (errorDict s)

/-- Dict lookup (only meaningful on `.obj`). -/
def lookupKey (v : JsonValue) (k : String) : Option JsonValue :=
  match v with
  | .obj fs => (fs.find? (fun p => p.1 == k)).map Prod.snd
  | _ => none

/-! ## Serialization (for the round-trip claim)

The program never serializes its result; the round-trip claim speaks of
"the serialized JSON form" of a successful outcome.  `dumps` below models
`json.dumps` with its default separators `", "` / `": "` in its
`ensure_ascii=False` mode (non-ASCII characters are emitted verbatim;
`ensure_ascii=True` only changes which equivalent escape is written). -/

/-- Lowercase hex digit. -/
def hexDig (n : Nat) : Char :=
  if n < 10 then Char.ofNat (48 + n) else Char.ofNat (87 + n)

/-- `json.dumps` escaping of one string character: the two mandatory
escapes, the short control escapes, `\u00XX` for the remaining control
characters, everything else verbatim. -/
def dumpStrChar (c : Char) : List Char :=
  if c = '"' then ['\\', '"']
  else if c = '\\' then ['\\', '\\']
  else if c = '\n' then ['\\', 'n']
  else if c = '\t' then ['\\', 't']
  else if c = '\r' then ['\\', 'r']
  else if c = '\x08' then ['\\', 'b']
  else if c = '\x0c' then ['\\', 'f']
  else if c.toNat < 0x20 then ['\\', 'u', '0', '0', hexDig (c.toNat / 16), hexDig (c.toNat % 16)]
  else [c]

/-- Serialized form of a string, quotes included. -/
def dumpStr (s : String) : List Char :=
  '"' :: (s.data.map dumpStrChar).flatten ++ ['"']

mutual
/-- Serialized form of a value (`json.dumps` with default separators). -/
def dumpsV : JsonValue → List Char
  | .null => "null".data
  | .bool true => "true".data
  | .bool false => "false".data
  | .num lex => lex.data
  | .str s => dumpStr s
  | .arr [] => ['[', ']']
  | .arr (x :: xs) => '[' :: (dumpsElems x xs ++ [']'])
  | .obj [] => ['{', '}']
  | .obj (f :: fs) => '{' :: (dumpsFields f fs ++ ['}'])
termination_by v => sizeOf v
decreasing_by all_goals (simp; try omega)

/-- Array elements joined by `", "`. -/
def dumpsElems : JsonValue → List JsonValue → List Char
  | x, [] => dumpsV x
  | x, y :: ys => dumpsV x ++ ',' :: ' ' :: dumpsElems y ys
termination_by x xs => sizeOf x + sizeOf xs
decreasing_by all_goals (simp; try omega)

/-- Object members `"key": value` joined by `", "`. -/
def dumpsFields : (String × JsonValue) → List (String × JsonValue) → List Char
  | (k, v), [] => dumpStr k ++ ':' :: ' ' :: dumpsV v
  | (k, v), f :: fs => dumpStr k ++ ':' :: ' ' :: dumpsV v ++ ',' :: ' ' :: dumpsFields f fs
termination_by f fs => sizeOf f + sizeOf fs
decreasing_by all_goals (simp; try omega)
end

/-- `json.dumps`, as a string. -/
def dumps (v : JsonValue) : String :=
  String.mk (dumpsV v)

/-- A number lexeme exactly as the scanner produces it: `parseNumber`
accepts it in full. -/
def ValidNumLex (lex : String) : Prop :=
  parseNumber lex.data = some (lex.data, [])

mutual
/-- Well-formedness of a value in the image of the parser: dict keys are
distinct (Python dicts) and number lexemes are genuine scanner output. -/
def WF : JsonValue → Prop
  | .num lex => ValidNumLex lex
  | .arr xs => WFElems xs
  | .obj fs => (fs.map Prod.fst).Nodup ∧ WFFields fs
  | _ => True

/-- All elements well-formed. -/
def WFElems : List JsonValue → Prop
  | [] => True
  | x :: xs => WF x ∧ WFElems xs

/-- All field values well-formed. -/
def WFFields : List (String × JsonValue) → Prop
  | [] => True
  | (_, v) :: fs => WF v ∧ WFFields fs
end

mutual
/-- Fuel sufficient for `parseValue` to parse the serialized form of `v`. -/
def needF : JsonValue → Nat
  | .arr [] => 1
  | .arr (x :: xs) => 1 + needElems x xs
  | .obj [] => 1
  | .obj (f :: fs) => 1 + needMembers f fs
  | _ => 1
termination_by v => sizeOf v
decreasing_by all_goals (simp; try omega)

/-- Fuel sufficient for `parseElems` on the serialized elements. -/
def needElems : JsonValue → List JsonValue → Nat
  | x, [] => 1 + needF x
  | x, y :: ys => 1 + max (needF x) (needElems y ys)
termination_by x xs => sizeOf x + sizeOf xs
decreasing_by all_goals (simp; try omega)

/-- Fuel sufficient for `parseMembers` on the serialized members. -/
def needMembers : (String × JsonValue) → List (String × JsonValue) → Nat
  | (_, v), [] => 1 + needF v
  | (_, v), f :: fs => 1 + max (needF v) (needMembers f fs)
termination_by f fs => sizeOf f + sizeOf fs
decreasing_by all_goals (simp; try omega)
end

/-! ## Line view of the unclosed-quote substitution -/

/-- Split on `'\n'` (Python line view used by `re.MULTILINE`); the
newlines themselves are not part of the lines. -/
def splitNl : List Char → List (List Char)
  | [] => [[]]
  | c :: r =>
    if c = '\n' then [] :: splitNl r
    else
      match splitNl r with
      | [] => [[c]]
      | ln :: ls => (c :: ln) :: ls

/-- Rejoin lines with `'\n'`. -/
def joinNl : List (List Char) → List Char
  | [] => []
  | [ln] => ln
  | ln :: ls => ln ++ '\n' :: joinNl ls

/-- What src/main.py:50 does to one line: if the line contains any `'"'`
(its last `'"'` is then followed by non-quotes up to the line end, so the
pattern matches there), append one `'"'`; otherwise leave it alone. -/
def fixQuoteLine (ln : List Char) : List Char :=
  if ln.contains '"' then ln ++ ['"'] else ln

/-! ## Definitions following the spec's words (for comparison only)

These are *not* translations of src/main.py; they formalize what the
claims say the code does, so that claim and code can be compared. -/

/-- Step (3) of claim C4, read as written: append a closing quote to a
line exactly when the line opens a quoted string without closing it,
i.e. when its number of quotes is odd. -/
def specStep3 (l : List Char) : List Char :=
  joinNl ((splitNl l).map (fun ln => if ln.count '"' % 2 = 1 then ln ++ ['"'] else ln))

/-- The Tier-2 transformation pipeline as claim C4 states it: identical
to `cleanTransform` except that step (3) is `specStep3`. -/
def specC4Transform (s : String) : List Char :=
  subTrailComma (subCommaNl (specStep3 (sliceBraces (pyStrip s.data))))

/-- All quoted substrings `"([^"]*)"` of a text, leftmost and
non-overlapping (the fallback scan described by claim C8). -/
def quotedStringsGo : Nat → List Char → List (List Char)
  | 0, _ => []
  | _ + 1, [] => []
  | fuel + 1, c :: rest =>
    if c = '"' then
      let v := rest.takeWhile (· != '"')
      if rest.drop v.length = [] then quotedStringsGo fuel rest
      else v :: quotedStringsGo fuel (rest.drop (v.length + 1))
    else quotedStringsGo fuel rest

/-- `quotedStringsGo` with enough fuel. -/
def quotedStrings (l : List Char) : List (List Char) :=
  quotedStringsGo l.length l

/-- The Tier-3 sub-variant claim C8 describes: quoted substrings that
contain a `?`, whose trimmed length exceeds 10, skipping the literal
string `perguntas`.  The code of src/main.py has no counterpart of this
definition. -/
def specQScan (s : String) : List String :=
  ((quotedStrings s.data).filter
    (fun q => q.contains '?' && decide ((pyStrip q).length > 10) && q != "perguntas".data)).map
    String.mk

/-! ## Delimiter predicates (for the round-trip development) -/

/-- The characters that can follow a serialized value inside `dumps`
output: nothing, a separator comma, or a closing bracket/brace. -/
def delimOk (r : List Char) : Prop :=
  r = [] ∨ r.head? = some ',' ∨ r.head? = some '}' ∨ r.head? = some ']'

/-- A tail that cannot extend a number lexeme: empty, or headed by a
character that is no digit and none of `.`, `e`, `E`, `+`, `-`. -/
def numDelim (r : List Char) : Prop :=
  r = [] ∨ ∃ h t, r = h :: t ∧ h ≠ '.' ∧ h ≠ 'e' ∧ h ≠ 'E' ∧ h ≠ '+' ∧ h ≠ '-' ∧
    h.isDigit = false

/-! ## Helper lemmas -/

theorem insertStrPair_ne_nil (d : List (String × String)) (kv : String × String) :
    insertStrPair d kv ≠ [] := by
  unfold insertStrPair
  split
  · rename_i h
    cases d with
    | nil => simp at h
    | cons p ps => simp
  · simp

theorem foldl_insertStrPair_ne_nil (ps : List (String × String)) :
    ∀ d : List (String × String), d ≠ [] → ps.foldl insertStrPair d ≠ [] := by
  induction ps with
  | nil => intro d hd; simpa using hd
  | cons p ps ih =>
    intro d hd
    exact ih (insertStrPair d p) (insertStrPair_ne_nil d p)

theorem foldl_insertStrPair_nonempty (p : String × String) (ps : List (String × String)) :
    (p :: ps).foldl insertStrPair [] ≠ [] := by
  simp only [List.foldl_cons]
  exact foldl_insertStrPair_ne_nil ps _ (insertStrPair_ne_nil [] p)

theorem insertStrPair_append (d : List (String × String)) (kv : String × String)
    (h : kv.1 ∉ d.map Prod.fst) : insertStrPair d kv = d ++ [kv] := by
  unfold insertStrPair
  have hany : d.any (fun p => p.1 == kv.1) = false := by
    rw [List.any_eq_false]
    intro p hp hk
    have h1 : p.1 = kv.1 := by simpa using hk
    exact h (h1 ▸ List.mem_map_of_mem Prod.fst hp)
  simp [hany]

theorem foldl_insertStrPair_id (ps : List (String × String)) :
    ∀ d : List (String × String), ((d ++ ps).map Prod.fst).Nodup →
      ps.foldl insertStrPair d = d ++ ps := by
  induction ps with
  | nil => intro d _; simp
  | cons p ps ih =>
    intro d hnd
    have hp : p.1 ∉ d.map Prod.fst := by
      intro hmem
      rw [List.map_append, List.nodup_append] at hnd
      exact hnd.2.2 hmem (by simp)
    simp only [List.foldl_cons, insertStrPair_append d p hp]
    have : (d ++ [p]) ++ ps = d ++ p :: ps := by simp
    rw [ih (d ++ [p]) (by rw [this]; exact hnd), this]

theorem pyIn_perguntas_truthy (v : JsonValue) (h : pyIn "perguntas" v = .ok true) :
    truthy v = true := by
  cases v with
  | obj fs =>
    cases fs with
    | nil => simp [pyIn, keyMem] at h
    | cons f fs => simp [truthy]
  | arr xs =>
    cases xs with
    | nil => simp [pyIn] at h
    | cons x xs => simp [truthy]
  | str t =>
    match ht : t.data with
    | [] =>
      rw [pyIn] at h
      rw [ht] at h
      simp [containsSub, leadsWith, String.data] at h
    | c :: cs => simp [truthy, ht]
  | null => simp [pyIn] at h
  | bool b => simp [pyIn] at h
  | num lex => simp [pyIn] at h

theorem subUGo_nil (fuel : Nat) : subUGo fuel [] = [] := by
  cases fuel <;> rfl

theorem joinNl_cons (x : List Char) (ls : List (List Char)) (h : ls ≠ []) :
    joinNl (x :: ls) = x ++ '\n' :: joinNl ls := by
  cases ls with
  | nil => exact absurd rfl h
  | cons y ys => rfl

theorem splitNl_ne_nil (l : List Char) : splitNl l ≠ [] := by
  cases l with
  | nil => simp [splitNl]
  | cons c r =>
    simp only [splitNl]
    split
    · simp
    · split <;> simp

theorem splitNl_no_nl (l : List Char) (h : '\n' ∉ l) : splitNl l = [l] := by
  induction l with
  | nil => rfl
  | cons c r ih =>
    have hc : c ≠ '\n' := fun hh => h (hh ▸ List.mem_cons_self c r)
    have hr : '\n' ∉ r := fun hh => h (List.mem_cons_of_mem c hh)
    simp only [splitNl, if_neg hc, ih hr]

theorem splitNl_append_nl (a b : List Char) (h : '\n' ∉ a) :
    splitNl (a ++ '\n' :: b) = a :: splitNl b := by
  induction a with
  | nil => simp [splitNl]
  | cons c r ih =>
    have hc : c ≠ '\n' := fun hh => h (hh ▸ List.mem_cons_self c r)
    have hr : '\n' ∉ r := fun hh => h (List.mem_cons_of_mem c hh)
    rw [List.cons_append]
    simp only [splitNl, if_neg hc]
    rw [ih hr]

theorem fixQuoteLine_cons (c : Char) (ln : List Char)
    (h : c ≠ '"' ∨ ln.contains '"' = true) :
    fixQuoteLine (c :: ln) = c :: fixQuoteLine ln := by
  cases hln : ln.contains '"' with
  | true =>
    have h2 : (c :: ln).contains '"' = true := by
      rw [List.contains_cons, hln, Bool.or_true]
    unfold fixQuoteLine
    rw [if_pos h2, if_pos hln]
    rfl
  | false =>
    have hc : c ≠ '"' := by
      rcases h with h | h
      · exact h
      · rw [h] at hln; cases hln
    have h2 : (c :: ln).contains '"' = false := by
      rw [List.contains_cons, hln, Bool.or_false]
      exact beq_eq_false_iff_ne.mpr (fun hh => hc hh.symm)
    unfold fixQuoteLine
    rw [if_neg (by rw [h2]; exact Bool.false_ne_true),
        if_neg (by rw [hln]; exact Bool.false_ne_true)]

theorem drop_len_takeWhile (p : Char → Bool) (l : List Char) :
    l.drop (l.takeWhile p).length = l.dropWhile p := by
  induction l with
  | nil => rfl
  | cons c r ih =>
    rw [List.takeWhile_cons, List.dropWhile_cons]
    split
    · simpa using ih
    · simp

theorem dropWhile_head_false (p : Char → Bool) (l : List Char) (c : Char) (r : List Char)
    (h : l.dropWhile p = c :: r) : p c = false := by
  induction l with
  | nil => simp at h
  | cons x xs ih =>
    rw [List.dropWhile_cons] at h
    split at h
    · exact ih h
    · rename_i hx
      cases h
      simpa using hx

/-- src/main.py:50 acts line by line: on every line containing a `'"'`
the pattern matches at the line's last quote and one `'"'` is appended at
the end of the line; quote-free lines are untouched. -/
theorem subUGo_linewise :
    ∀ (fuel : Nat) (l : List Char), l.length ≤ fuel →
      subUGo fuel l = joinNl ((splitNl l).map fixQuoteLine) := by
  intro fuel
  induction fuel with
  | zero =>
    intro l hl
    have hnil : l = [] := List.eq_nil_of_length_eq_zero (Nat.le_zero.mp hl)
    subst hnil
    rfl
  | succ fuel ih =>
    intro l hl
    match l with
    | [] => rfl
    | c :: rest =>
      have hrestlen : rest.length ≤ fuel := by
        simpa using Nat.lt_succ_iff.mp (Nat.lt_of_lt_of_le (by simp) hl)
      have hdecomp : rest.takeWhile (· ≠ '\n') ++ rest.dropWhile (· ≠ '\n') = rest :=
        List.takeWhile_append_dropWhile _ rest
      have hnotw : '\n' ∉ rest.takeWhile (· ≠ '\n') := by
        intro hmem
        have := List.mem_takeWhile_imp hmem
        simp at this
      cases hcond : (c = '"' && !((rest.takeWhile (· ≠ '\n')).contains '"')) with
      | true =>
        have hc : c = '"' := by
          have := (Bool.and_eq_true _ _).mp hcond
          exact of_decide_eq_true this.1
        subst hc
        have hnq : (rest.takeWhile (· ≠ '\n')).contains '"' = false := by
          have h9 := (Bool.and_eq_true _ _).mp hcond
          simpa using h9.2
        have hstep : subUGo (fuel + 1) ('"' :: rest) =
            '"' :: rest.takeWhile (· ≠ '\n') ++ '"' ::
              subUGo fuel (rest.dropWhile (· ≠ '\n')) := by
          simp only [subUGo]
          rw [hnq]
          rw [if_pos (by rfl)]
          rw [drop_len_takeWhile]
        rw [hstep]
        cases hd : rest.dropWhile (· ≠ '\n') with
        | nil =>
          have hall : ∀ x ∈ rest, x ≠ '\n' := by
            have := List.dropWhile_eq_nil_iff.mp hd
            intro x hx
            simpa using this x hx
          have hnl : '\n' ∉ '"' :: rest := by
            intro hmem
            rcases List.mem_cons.mp hmem with hh | hh
            · exact absurd hh.symm (by decide)
            · exact hall '\n' hh rfl
          have htw : rest.takeWhile (· ≠ '\n') = rest := by
            have h5 := hdecomp
            rw [hd, List.append_nil] at h5
            exact h5
          have hcont : ('"' :: rest).contains '"' = true := by
            rw [List.contains_cons]
            simp
          rw [subUGo_nil, htw, splitNl_no_nl _ hnl]
          have h10 : fixQuoteLine ('"' :: rest) = ('"' :: rest) ++ ['"'] := by
            unfold fixQuoteLine
            rw [if_pos hcont]
          rw [List.map_cons, List.map_nil, h10]
          rfl
        | cons nc r2 =>
          have hnc : nc = '\n' := by
            have := dropWhile_head_false _ _ _ _ hd
            simpa using this
          subst hnc
          have hrest : rest = rest.takeWhile (· ≠ '\n') ++ '\n' :: r2 := by
            conv_lhs => rw [← hdecomp, hd]
          have hnl2 : '\n' ∉ '"' :: rest.takeWhile (· ≠ '\n') := by
            intro hmem
            rcases List.mem_cons.mp hmem with hh | hh
            · exact absurd hh.symm (by decide)
            · exact hnotw hh
          have hsplit : splitNl ('"' :: rest) =
              ('"' :: rest.takeWhile (· ≠ '\n')) :: splitNl r2 := by
            conv_lhs => rw [hrest]
            exact splitNl_append_nl ('"' :: rest.takeWhile (· ≠ '\n')) r2 hnl2
          have hlen2 : ('\n' :: r2).length ≤ fuel := by
            have h6 : rest.length = (rest.takeWhile (· ≠ '\n')).length + ('\n' :: r2).length := by
              conv_lhs => rw [hrest]
              simp
            omega
          have hsub2 : subUGo fuel ('\n' :: r2) =
              '\n' :: joinNl ((splitNl r2).map fixQuoteLine) := by
            rw [ih ('\n' :: r2) hlen2]
            have h7 : splitNl ('\n' :: r2) = [] :: splitNl r2 := by
              simp [splitNl]
            rw [h7, List.map_cons,
              joinNl_cons _ _ (by simpa using splitNl_ne_nil r2)]
            rfl
          have hcont : ('"' :: rest.takeWhile (· ≠ '\n')).contains '"' = true := by
            rw [List.contains_cons]
            simp
          rw [hsub2, hsplit, List.map_cons,
            joinNl_cons _ _ (by simpa using splitNl_ne_nil r2)]
          unfold fixQuoteLine
          rw [if_pos hcont]
          simp
      | false =>
        have hstep : subUGo (fuel + 1) (c :: rest) = c :: subUGo fuel rest := by
          simp only [subUGo, hcond]
          rfl
        rw [hstep, ih rest hrestlen]
        have hside : c ≠ '"' ∨ (rest.takeWhile (· ≠ '\n')).contains '"' = true := by
          by_cases hc : c = '"'
          · right
            cases hq : (rest.takeWhile (· ≠ '\n')).contains '"' with
            | true => rfl
            | false =>
              exfalso
              rw [hc, hq] at hcond
              simp at hcond
          · exact Or.inl hc
        by_cases hcnl : c = '\n'
        · subst hcnl
          have h8 : splitNl ('\n' :: rest) = [] :: splitNl rest := by
            simp [splitNl]
          rw [h8, List.map_cons,
            joinNl_cons _ _ (by simpa using splitNl_ne_nil rest)]
          rfl
        · cases hd : rest.dropWhile (· ≠ '\n') with
          | nil =>
            have hall : ∀ x ∈ rest, x ≠ '\n' := by
              have := List.dropWhile_eq_nil_iff.mp hd
              intro x hx
              simpa using this x hx
            have hnl1 : '\n' ∉ rest := fun hh => hall '\n' hh rfl
            have hnl2 : '\n' ∉ c :: rest := by
              intro hmem
              rcases List.mem_cons.mp hmem with hh | hh
              · exact hcnl hh.symm
              · exact hnl1 hh
            rw [splitNl_no_nl _ hnl2, splitNl_no_nl _ hnl1]
            have htw : rest.takeWhile (· ≠ '\n') = rest := by
              have h5 := hdecomp
              rw [hd, List.append_nil] at h5
              exact h5
            show c :: fixQuoteLine rest = fixQuoteLine (c :: rest)
            rw [fixQuoteLine_cons c rest (by rw [← htw]; exact hside)]
          | cons nc r2 =>
            have hnc : nc = '\n' := by
              have := dropWhile_head_false _ _ _ _ hd
              simpa using this
            subst hnc
            have hrest : rest = rest.takeWhile (· ≠ '\n') ++ '\n' :: r2 := by
              conv_lhs => rw [← hdecomp, hd]
            have hsplitr : splitNl rest = rest.takeWhile (· ≠ '\n') :: splitNl r2 := by
              conv_lhs => rw [hrest]
              exact splitNl_append_nl _ r2 hnotw
            have hnl2 : '\n' ∉ c :: rest.takeWhile (· ≠ '\n') := by
              intro hmem
              rcases List.mem_cons.mp hmem with hh | hh
              · exact hcnl hh.symm
              · exact hnotw hh
            have hsplit : splitNl (c :: rest) =
                (c :: rest.takeWhile (· ≠ '\n')) :: splitNl r2 := by
              conv_lhs => rw [hrest]
              exact splitNl_append_nl (c :: rest.takeWhile (· ≠ '\n')) r2 hnl2
            rw [hsplit, hsplitr, List.map_cons, List.map_cons,
              joinNl_cons _ _ (by simpa using splitNl_ne_nil r2),
              joinNl_cons _ _ (by simpa using splitNl_ne_nil r2),
              fixQuoteLine_cons c _ hside]
            rfl

theorem takeWhile_append_all (p : Char → Bool) (a b : List Char)
    (h : ∀ c ∈ a, p c = true) : (a ++ b).takeWhile p = a ++ b.takeWhile p := by
  induction a with
  | nil => rfl
  | cons x xs ih =>
    rw [List.cons_append, List.takeWhile_cons, if_pos (h x (by simp))]
    rw [ih (fun c hc => h c (by simp [hc]))]
    rfl

theorem takeWhile_eq_nil_of_head (p : Char → Bool) (b : List Char)
    (h : ∀ c t, b = c :: t → p c = false) :
    b.takeWhile p = [] := by
  cases b with
  | nil => rfl
  | cons c t =>
    rw [List.takeWhile_cons, if_neg (by rw [h c t rfl]; exact Bool.false_ne_true)]

theorem leadsWith_self_append (pat r : List Char) : leadsWith pat (pat ++ r) = true := by
  induction pat with
  | nil => rfl
  | cons p ps ih => simp [leadsWith, ih]

theorem fracPart_shape (r : List Char) :
    (fracPart r).1 = [] ∨
      ∃ ds, (fracPart r).1 = '.' :: ds ∧ ds ≠ [] ∧ ∀ x ∈ ds, x.isDigit = true := by
  unfold fracPart
  split
  · rename_i r'
    dsimp only
    split
    · left; rfl
    · rename_i hne
      right
      refine ⟨r'.takeWhile Char.isDigit, rfl, by simpa using hne, ?_⟩
      intro x hx
      exact List.mem_takeWhile_imp hx
  · left; rfl

theorem expPart_shape (r : List Char) :
    (expPart r).1 = [] ∨
      ∃ ec sg ds, (expPart r).1 = ec :: (sg ++ ds) ∧ (ec = 'e' ∨ ec = 'E') ∧
        (sg = [] ∨ sg = ['+'] ∨ sg = ['-']) ∧ ds ≠ [] ∧ ∀ x ∈ ds, x.isDigit = true := by
  unfold expPart
  split
  · rename_i e r'
    dsimp only
    split
    · rename_i hee
      split
      · left; rfl
      · rename_i hne
        right
        refine ⟨e, ?_⟩
        have hee2 : e = 'e' ∨ e = 'E' := by
          rcases Bool.or_eq_true _ _ |>.mp hee with h | h
          · exact Or.inl (by simpa using h)
          · exact Or.inr (by simpa using h)
        cases hsr : (match r' with
            | s :: r2 => if s = '+' || s = '-' then ([s], r2) else ([], s :: r2)
            | [] => (([] : List Char), ([] : List Char))) with
        | mk sg r2 =>
          refine ⟨sg, r2.takeWhile Char.isDigit, ?_, hee2, ?_, ?_, ?_⟩
          · rfl
          · -- sign shape
            revert hsr
            split
            · rename_i s r3
              split
              · rename_i hs
                intro hsr
                cases hsr
                rcases Bool.or_eq_true _ _ |>.mp hs with h | h
                · exact Or.inr (Or.inl (by simp [of_decide_eq_true h]))
                · exact Or.inr (Or.inr (by simp [of_decide_eq_true h]))
              · intro hsr
                cases hsr
                exact Or.inl rfl
            · intro hsr
              cases hsr
              exact Or.inl rfl
          · -- ds nonempty
            revert hne
            rw [hsr]
            intro hne
            simpa using hne
          · intro x hx
            exact List.mem_takeWhile_imp hx
    · left; rfl
  · left; rfl

theorem fracPart_exact_nil (tail : List Char)
    (h : tail = [] ∨ ∃ hd t, tail = hd :: t ∧ hd ≠ '.') :
    fracPart tail = ([], tail) := by
  rcases h with h | ⟨hd, t, h, hne⟩
  · subst h; rfl
  · subst h
    unfold fracPart
    split
    · rename_i r' heq
      cases heq
      exact absurd rfl hne
    · rfl

theorem fracPart_exact_frac (ds tail : List Char) (hds : ds ≠ [])
    (hdig : ∀ x ∈ ds, x.isDigit = true)
    (htail : tail = [] ∨ ∃ hd t, tail = hd :: t ∧ hd.isDigit = false) :
    fracPart ('.' :: (ds ++ tail)) = ('.' :: ds, tail) := by
  have htw : (ds ++ tail).takeWhile Char.isDigit = ds := by
    rw [takeWhile_append_all _ _ _ hdig,
      takeWhile_eq_nil_of_head _ tail (by
        intro c t hct
        rcases htail with h | ⟨hd, t', h, hdd⟩
        · rw [h] at hct; cases hct
        · rw [h] at hct
          cases hct
          exact hdd),
      List.append_nil]
  show (let dss := (ds ++ tail).takeWhile Char.isDigit
        if dss.isEmpty then ([], '.' :: (ds ++ tail))
        else ('.' :: dss, (ds ++ tail).drop dss.length)) = ('.' :: ds, tail)
  dsimp only
  rw [htw, if_neg (by simpa using hds), List.drop_left]

theorem expPart_exact_nil (tail : List Char)
    (h : tail = [] ∨ ∃ hd t, tail = hd :: t ∧ hd ≠ 'e' ∧ hd ≠ 'E') :
    expPart tail = ([], tail) := by
  rcases h with h | ⟨hd, t, h, hne1, hne2⟩
  · subst h; rfl
  · subst h
    unfold expPart
    dsimp only
    rw [if_neg (by
      intro hcond
      rcases Bool.or_eq_true _ _ |>.mp hcond with hh | hh
      · exact hne1 (of_decide_eq_true hh)
      · exact hne2 (of_decide_eq_true hh))]

theorem expPart_exact (ec : Char) (sg ds tail : List Char)
    (hec : ec = 'e' ∨ ec = 'E') (hsg : sg = [] ∨ sg = ['+'] ∨ sg = ['-'])
    (hds : ds ≠ []) (hdig : ∀ x ∈ ds, x.isDigit = true)
    (htail : tail = [] ∨ ∃ hd t, tail = hd :: t ∧ hd.isDigit = false) :
    expPart (ec :: (sg ++ ds ++ tail)) = (ec :: (sg ++ ds), tail) := by
  have hecb : (ec = 'e' || ec = 'E') = true := by
    rcases hec with h | h <;> simp [h]
  have htw : (ds ++ tail).takeWhile Char.isDigit = ds := by
    rw [takeWhile_append_all _ _ _ hdig,
      takeWhile_eq_nil_of_head _ tail (by
        intro c t hct
        rcases htail with h | ⟨hd, t2, h, hdd⟩
        · rw [h] at hct; cases hct
        · rw [h] at hct
          cases hct
          exact hdd),
      List.append_nil]
  obtain ⟨d, ds2, hdds⟩ : ∃ d ds2, ds = d :: ds2 := by
    cases ds with
    | nil => exact absurd rfl hds
    | cons d ds2 => exact ⟨d, ds2, rfl⟩
  have hddig : d.isDigit = true := hdig d (by rw [hdds]; simp)
  have hdnotsign : (d = '+' || d = '-') = false := by
    cases hd1 : decide (d = '+') with
    | true =>
      have h2 := of_decide_eq_true hd1
      rw [h2] at hddig
      cases hddig
    | false =>
      cases hd2 : decide (d = '-') with
      | true =>
        have h2 := of_decide_eq_true hd2
        rw [h2] at hddig
        cases hddig
      | false => simp [hd1, hd2]
  have htw2 : (d :: (ds2 ++ tail)).takeWhile Char.isDigit = d :: ds2 := by
    have h3 := htw
    rw [hdds, List.cons_append] at h3
    exact h3
  rcases hsg with hsgn | hsgn | hsgn
  · -- no explicit sign: the first digit is read directly
    subst hsgn
    rw [List.nil_append, hdds, List.cons_append]
    unfold expPart
    dsimp only
    rw [if_pos hecb,
      if_neg (show ¬(d = '+' || d = '-') = true by
        rw [hdnotsign]; exact Bool.false_ne_true)]
    dsimp only
    rw [htw2, if_neg (by simp), show d :: (ds2 ++ tail) = (d :: ds2) ++ tail from by
      rw [List.cons_append], List.drop_left]
    rfl
  · -- sign `+`
    subst hsgn
    rw [show (['+'] : List Char) ++ ds ++ tail = '+' :: (ds ++ tail) from by simp]
    unfold expPart
    dsimp only
    rw [if_pos hecb, if_pos (show ((('+' : Char) = '+' || ('+' : Char) = '-')) = true by decide)]
    dsimp only
    rw [htw, if_neg (by simpa using hds), List.drop_left]
  · -- sign `-`
    subst hsgn
    rw [show (['-'] : List Char) ++ ds ++ tail = '-' :: (ds ++ tail) from by simp]
    unfold expPart
    dsimp only
    rw [if_pos hecb, if_pos (show ((('-' : Char) = '+' || ('-' : Char) = '-')) = true by decide)]
    dsimp only
    rw [htw, if_neg (by simpa using hds), List.drop_left]

theorem fracExp_reconstruct (F E rest2 : List Char)
    (hF : F = [] ∨ ∃ ds, F = '.' :: ds ∧ ds ≠ [] ∧ ∀ x ∈ ds, x.isDigit = true)
    (hE : E = [] ∨ ∃ ec sg ds, E = ec :: (sg ++ ds) ∧ (ec = 'e' ∨ ec = 'E') ∧
      (sg = [] ∨ sg = ['+'] ∨ sg = ['-']) ∧ ds ≠ [] ∧ ∀ x ∈ ds, x.isDigit = true)
    (hrest : numDelim rest2) :
    fracPart (F ++ (E ++ rest2)) = (F, E ++ rest2) ∧ expPart (E ++ rest2) = (E, rest2) := by
  have hr1 : rest2 = [] ∨ ∃ hd t, rest2 = hd :: t ∧ hd ≠ '.' := by
    rcases hrest with h2 | ⟨hd, t, h2, hd1, _, _, _, _, _⟩
    · exact Or.inl h2
    · exact Or.inr ⟨hd, t, h2, hd1⟩
  have hr2 : rest2 = [] ∨ ∃ hd t, rest2 = hd :: t ∧ hd.isDigit = false := by
    rcases hrest with h2 | ⟨hd, t, h2, _, _, _, _, _, hd6⟩
    · exact Or.inl h2
    · exact Or.inr ⟨hd, t, h2, hd6⟩
  have hr3 : rest2 = [] ∨ ∃ hd t, rest2 = hd :: t ∧ hd ≠ 'e' ∧ hd ≠ 'E' := by
    rcases hrest with h2 | ⟨hd, t, h2, _, hd2, hd3, _, _, _⟩
    · exact Or.inl h2
    · exact Or.inr ⟨hd, t, h2, hd2, hd3⟩
  have hEtail1 : E ++ rest2 = [] ∨ ∃ hd t, E ++ rest2 = hd :: t ∧ hd ≠ '.' := by
    rcases hE with hE0 | ⟨ec, sg, ds, hE1, hec, _, _, _⟩
    · rw [hE0, List.nil_append]
      exact hr1
    · rw [hE1, List.cons_append]
      refine Or.inr ⟨ec, sg ++ ds ++ rest2, by rw [List.append_assoc], ?_⟩
      rcases hec with h | h <;> (rw [h]; decide)
  have hEtail2 : E ++ rest2 = [] ∨ ∃ hd t, E ++ rest2 = hd :: t ∧ hd.isDigit = false := by
    rcases hE with hE0 | ⟨ec, sg, ds, hE1, hec, _, _, _⟩
    · rw [hE0, List.nil_append]
      exact hr2
    · rw [hE1, List.cons_append]
      refine Or.inr ⟨ec, sg ++ ds ++ rest2, by rw [List.append_assoc], ?_⟩
      rcases hec with h | h <;> (rw [h]; decide)
  constructor
  · rcases hF with hF0 | ⟨ds, hF1, hds, hdig⟩
    · rw [hF0, List.nil_append]
      exact fracPart_exact_nil (E ++ rest2) hEtail1
    · rw [hF1, List.cons_append]
      exact fracPart_exact_frac ds (E ++ rest2) hds hdig hEtail2
  · rcases hE with hE0 | ⟨ec, sg, ds, hE1, hec, hsg, hds, hdig⟩
    · rw [hE0, List.nil_append]
      exact expPart_exact_nil rest2 hr3
    · rw [hE1, List.cons_append]
      exact expPart_exact ec sg ds rest2 hec hsg hds hdig hr2

theorem numBody_append (l a r rest2 : List Char)
    (h : numBody l = some (a, r)) (hrest : numDelim rest2) :
    numBody (a ++ rest2) = some (a, rest2) := by
  unfold numBody at h
  split at h
  · -- l = '0' :: r1
    rename_i r1
    rcases hfp0 : fracPart r1 with ⟨F, fr⟩
    rcases hep0 : expPart fr with ⟨E, er⟩
    dsimp only at h
    rw [hfp0] at h
    dsimp only at h
    rw [hep0] at h
    dsimp only at h
    have hFsh := fracPart_shape r1
    have hEsh := expPart_shape fr
    rw [hfp0] at hFsh
    rw [hep0] at hEsh
    dsimp only at hFsh hEsh
    have hpair : ('0' :: (F ++ E), er) = (a, r) := Option.some.inj h
    obtain ⟨ha, hr⟩ := Prod.mk.injEq _ _ _ _ |>.mp hpair
    subst ha
    obtain ⟨hfp, hep⟩ := fracExp_reconstruct F E rest2 hFsh hEsh hrest
    rw [List.cons_append]
    show some ('0' :: ((fracPart ((F ++ E) ++ rest2)).1 ++
        (expPart (fracPart ((F ++ E) ++ rest2)).2).1),
        (expPart (fracPart ((F ++ E) ++ rest2)).2).2) = some ('0' :: (F ++ E), rest2)
    rw [List.append_assoc, hfp]
    dsimp only
    rw [hep]
  · -- l = c :: r1 with c a nonzero digit
    rename_i c r1 hno
    split at h
    · rename_i hcdig
      dsimp only at h
      rcases hfp0 : fracPart (r1.drop (r1.takeWhile Char.isDigit).length) with ⟨F, fr⟩
      rcases hep0 : expPart fr with ⟨E, er⟩
      rw [hfp0] at h
      dsimp only at h
      rw [hep0] at h
      dsimp only at h
      have hFsh := fracPart_shape (r1.drop (r1.takeWhile Char.isDigit).length)
      have hEsh := expPart_shape fr
      rw [hfp0] at hFsh
      rw [hep0] at hEsh
      dsimp only at hFsh hEsh
      have hpair : (c :: (r1.takeWhile Char.isDigit ++ F ++ E), er) = (a, r) :=
        Option.some.inj h
      obtain ⟨ha, hr⟩ := Prod.mk.injEq _ _ _ _ |>.mp hpair
      subst ha
      have hc0 : c ≠ '0' := fun hc => hno hc
      have hdsdig : ∀ x ∈ r1.takeWhile Char.isDigit, x.isDigit = true := by
        intro x hx
        exact List.mem_takeWhile_imp hx
      obtain ⟨hfp, hep⟩ := fracExp_reconstruct F E rest2 hFsh hEsh hrest
      have hFEhead : ∀ hd t, F ++ (E ++ rest2) = hd :: t → hd.isDigit = false := by
        intro hd t hht
        rcases hFsh with hF0 | ⟨ds, hF1, hds, hdig⟩
        · rw [hF0, List.nil_append] at hht
          rcases hEsh with hE0 | ⟨ec, sg, ds, hE1, hec, _, _, _⟩
          · rw [hE0, List.nil_append] at hht
            rcases hrest with h2 | ⟨hd2, t2, h2, _, _, _, _, _, hd6⟩
            · rw [h2] at hht; cases hht
            · rw [h2] at hht
              cases hht
              exact hd6
          · rw [hE1, List.cons_append] at hht
            cases hht
            rcases hec with hh | hh <;> (rw [hh]; decide)
        · rw [hF1, List.cons_append] at hht
          cases hht
          decide
      have htw : (r1.takeWhile Char.isDigit ++ (F ++ (E ++ rest2))).takeWhile Char.isDigit =
          r1.takeWhile Char.isDigit := by
        rw [takeWhile_append_all _ _ _ hdsdig,
          takeWhile_eq_nil_of_head _ _ hFEhead, List.append_nil]
      rw [List.cons_append,
        show (r1.takeWhile Char.isDigit ++ F ++ E) ++ rest2 =
          r1.takeWhile Char.isDigit ++ (F ++ (E ++ rest2)) from by simp]
      unfold numBody
      split
      · rename_i r1' heq
        obtain ⟨hc, _⟩ := List.cons.injEq _ _ _ _ |>.mp heq
        exact absurd hc hc0
      · rename_i c' r1' hno' heq
        obtain ⟨hc, hr1'⟩ := List.cons.injEq _ _ _ _ |>.mp heq
        subst hc
        subst hr1'
        rw [if_pos hcdig]
        dsimp only
        rw [htw,
          show (r1.takeWhile Char.isDigit ++ (F ++ (E ++ rest2))).drop
            (r1.takeWhile Char.isDigit).length = F ++ (E ++ rest2) from List.drop_left _ _,
          hfp]
        dsimp only
        rw [hep]
      · rename_i heq
        cases heq
    · cases h
  · cases h

theorem numBody_head (l a r : List Char) (h : numBody l = some (a, r)) :
    ∃ c t, a = c :: t ∧ c.isDigit = true := by
  unfold numBody at h
  split at h
  · rename_i r1
    dsimp only at h
    have hpair := Option.some.inj h
    obtain ⟨ha, _⟩ := Prod.mk.injEq _ _ _ _ |>.mp hpair
    exact ⟨'0', _, ha.symm, by decide⟩
  · rename_i c r1 hno
    split at h
    · rename_i hcdig
      dsimp only at h
      have hpair := Option.some.inj h
      obtain ⟨ha, _⟩ := Prod.mk.injEq _ _ _ _ |>.mp hpair
      exact ⟨c, _, ha.symm, hcdig⟩
    · cases h
  · cases h

theorem numRe_append (l a r rest2 : List Char)
    (h : numRe l = some (a, r)) (hrest : numDelim rest2) :
    numRe (a ++ rest2) = some (a, rest2) := by
  unfold numRe at h
  split at h
  · rename_i r'
    cases hb : numBody r' with
    | none => rw [hb] at h; cases h
    | some p =>
      rcases p with ⟨a', r''⟩
      rw [hb] at h
      have hpair : ('-' :: a', r'') = (a, r) := Option.some.inj h
      obtain ⟨ha, _⟩ := Prod.mk.injEq _ _ _ _ |>.mp hpair
      subst ha
      have hb2 := numBody_append r' a' r'' rest2 hb hrest
      rw [List.cons_append]
      show (numBody (a' ++ rest2)).map (fun p => ('-' :: p.1, p.2)) = some ('-' :: a', rest2)
      rw [hb2]
      rfl
  · rename_i hno
    obtain ⟨c, t, ha, hcdig⟩ := numBody_head l a r h
    subst ha
    have hcm : c ≠ '-' := by
      intro hc
      rw [hc] at hcdig
      cases hcdig
    have hb2 := numBody_append l (c :: t) r rest2 h hrest
    rw [List.cons_append]
    unfold numRe
    split
    · rename_i r' heq
      obtain ⟨hc, _⟩ := List.cons.injEq _ _ _ _ |>.mp heq
      exact absurd hc hcm
    · rw [← List.cons_append]
      exact hb2

theorem parseNumber_append (l a r rest2 : List Char)
    (h : parseNumber l = some (a, r)) (hrest : numDelim rest2) :
    parseNumber (a ++ rest2) = some (a, rest2) := by
  unfold parseNumber at h
  split at h
  · rename_i p heq
    have hp : p = (a, r) := Option.some.inj h
    subst hp
    have := numRe_append l a r rest2 heq hrest
    unfold parseNumber
    rw [this]
  · rename_i heq
    split at h
    · have hpair := Option.some.inj h
      obtain ⟨ha, _⟩ := Prod.mk.injEq _ _ _ _ |>.mp hpair
      subst ha
      rfl
    · split at h
      · have hpair := Option.some.inj h
        obtain ⟨ha, _⟩ := Prod.mk.injEq _ _ _ _ |>.mp hpair
        subst ha
        rfl
      · split at h
        · have hpair := Option.some.inj h
          obtain ⟨ha, _⟩ := Prod.mk.injEq _ _ _ _ |>.mp hpair
          subst ha
          rfl
        · cases h

theorem parseNumber_head (l a r : List Char) (h : parseNumber l = some (a, r)) :
    ∃ c t, a = c :: t ∧ (c = '-' ∨ c.isDigit = true ∨ c = 'N' ∨ c = 'I') := by
  unfold parseNumber at h
  split at h
  · rename_i p heq
    have hp : p = (a, r) := Option.some.inj h
    subst hp
    unfold numRe at heq
    split at heq
    · rename_i r'
      cases hb : numBody r' with
      | none => rw [hb] at heq; cases heq
      | some q =>
        rcases q with ⟨a', r''⟩
        rw [hb] at heq
        have hpair : ('-' :: a', r'') = (a, r) := Option.some.inj heq
        obtain ⟨ha, _⟩ := Prod.mk.injEq _ _ _ _ |>.mp hpair
        exact ⟨'-', a', ha.symm, Or.inl rfl⟩
    · obtain ⟨c, t, ha, hcdig⟩ := numBody_head l a r heq
      exact ⟨c, t, ha, Or.inr (Or.inl hcdig)⟩
  · split at h
    · have hpair := Option.some.inj h
      obtain ⟨ha, _⟩ := Prod.mk.injEq _ _ _ _ |>.mp hpair
      exact ⟨'N', _, ha.symm, Or.inr (Or.inr (Or.inl rfl))⟩
    · split at h
      · have hpair := Option.some.inj h
        obtain ⟨ha, _⟩ := Prod.mk.injEq _ _ _ _ |>.mp hpair
        exact ⟨'I', _, ha.symm, Or.inr (Or.inr (Or.inr rfl))⟩
      · split at h
        · have hpair := Option.some.inj h
          obtain ⟨ha, _⟩ := Prod.mk.injEq _ _ _ _ |>.mp hpair
          exact ⟨'-', _, ha.symm, Or.inl rfl⟩
        · cases h

theorem delimOk_numDelim (r : List Char) (h : delimOk r) : numDelim r := by
  rcases h with h | h | h | h
  · exact Or.inl h
  · cases r with
    | nil => cases h
    | cons c t =>
      have hc : c = ',' := by simpa using h
      subst hc
      exact Or.inr ⟨',', t, rfl, by decide, by decide, by decide, by decide, by decide, by decide⟩
  · cases r with
    | nil => cases h
    | cons c t =>
      have hc : c = '}' := by simpa using h
      subst hc
      exact Or.inr ⟨'}', t, rfl, by decide, by decide, by decide, by decide, by decide, by decide⟩
  · cases r with
    | nil => cases h
    | cons c t =>
      have hc : c = ']' := by simpa using h
      subst hc
      exact Or.inr ⟨']', t, rfl, by decide, by decide, by decide, by decide, by decide, by decide⟩

theorem hexVal_hexDig : ∀ n, n < 16 → hexVal (hexDig n) = some n := by decide

theorem dumpStrChar_length_pos (c : Char) : 0 < (dumpStrChar c).length := by
  unfold dumpStrChar
  split
  · simp
  · split
    · simp
    · split
      · simp
      · split
        · simp
        · split
          · simp
          · split
            · simp
            · split
              · simp
              · split
                · simp
                · simp

theorem parseStrGo_rt :
    ∀ (fuel : Nat) (cs rest : List Char),
      ((cs.map dumpStrChar).flatten ++ '"' :: rest).length ≤ fuel →
      parseStrGo fuel ((cs.map dumpStrChar).flatten ++ '"' :: rest) = some (cs, rest) := by
  intro fuel
  induction fuel with
  | zero =>
    intro cs rest hl
    exfalso
    simp [List.length_append] at hl
  | succ fuel ih =>
    intro cs rest hl
    cases cs with
    | nil =>
      show parseStrGo (fuel + 1) ('"' :: rest) = some ([], rest)
      rfl
    | cons c cs' =>
      have hassoc : (((c :: cs').map dumpStrChar).flatten ++ '"' :: rest) =
          dumpStrChar c ++ ((cs'.map dumpStrChar).flatten ++ '"' :: rest) := by
        simp
      rw [hassoc] at hl ⊢
      have hlen : ((cs'.map dumpStrChar).flatten ++ '"' :: rest).length ≤ fuel := by
        have hp := dumpStrChar_length_pos c
        rw [List.length_append] at hl
        omega
      have hihR := ih cs' rest hlen
      by_cases h1 : c = '"'
      · subst h1
        show (parseStrGo fuel ((cs'.map dumpStrChar).flatten ++ '"' :: rest)).map
            (fun p => ('"' :: p.1, p.2)) = some ('"' :: cs', rest)
        rw [hihR]
        rfl
      · by_cases h2 : c = '\\'
        · subst h2
          show (parseStrGo fuel ((cs'.map dumpStrChar).flatten ++ '"' :: rest)).map
              (fun p => ('\\' :: p.1, p.2)) = some ('\\' :: cs', rest)
          rw [hihR]
          rfl
        · by_cases h3 : c = '\n'
          · subst h3
            show (parseStrGo fuel ((cs'.map dumpStrChar).flatten ++ '"' :: rest)).map
                (fun p => ('\n' :: p.1, p.2)) = some ('\n' :: cs', rest)
            rw [hihR]
            rfl
          · by_cases h4 : c = '\t'
            · subst h4
              show (parseStrGo fuel ((cs'.map dumpStrChar).flatten ++ '"' :: rest)).map
                  (fun p => ('\t' :: p.1, p.2)) = some ('\t' :: cs', rest)
              rw [hihR]
              rfl
            · by_cases h5 : c = '\r'
              · subst h5
                show (parseStrGo fuel ((cs'.map dumpStrChar).flatten ++ '"' :: rest)).map
                    (fun p => ('\r' :: p.1, p.2)) = some ('\r' :: cs', rest)
                rw [hihR]
                rfl
              · by_cases h6 : c = '\x08'
                · subst h6
                  show (parseStrGo fuel ((cs'.map dumpStrChar).flatten ++ '"' :: rest)).map
                      (fun p => ('\x08' :: p.1, p.2)) = some ('\x08' :: cs', rest)
                  rw [hihR]
                  rfl
                · by_cases h7 : c = '\x0c'
                  · subst h7
                    show (parseStrGo fuel ((cs'.map dumpStrChar).flatten ++ '"' :: rest)).map
                        (fun p => ('\x0c' :: p.1, p.2)) = some ('\x0c' :: cs', rest)
                    rw [hihR]
                    rfl
                  · by_cases h8 : c.toNat < 0x20
                    · -- escaped as \u00XY
                      have hd : dumpStrChar c = ['\\', 'u', '0', '0',
                          hexDig (c.toNat / 16), hexDig (c.toNat % 16)] := by
                        unfold dumpStrChar
                        rw [if_neg h1, if_neg h2, if_neg h3, if_neg h4, if_neg h5,
                          if_neg h6, if_neg h7, if_pos h8]
                      rw [hd]
                      have hx1 : hexVal (hexDig (c.toNat / 16)) = some (c.toNat / 16) :=
                        hexVal_hexDig _ (by omega)
                      have hx2 : hexVal (hexDig (c.toNat % 16)) = some (c.toNat % 16) :=
                        hexVal_hexDig _ (Nat.mod_lt _ (by norm_num))
                      have hx0 : hexVal '0' = some 0 := rfl
                      show ((hexVal '0').bind fun va =>
                          (hexVal '0').bind fun vb =>
                          (hexVal (hexDig (c.toNat / 16))).bind fun vc =>
                          (hexVal (hexDig (c.toNat % 16))).bind fun vd =>
                          let v := ((va * 16 + vb) * 16 + vc) * 16 + vd
                          if 0xD800 ≤ v ∧ v ≤ 0xDBFF then
                            match (cs'.map dumpStrChar).flatten ++ '"' :: rest with
                            | '\\' :: 'u' :: a2 :: b2 :: c2 :: d2 :: r5 =>
                              (hexVal a2).bind fun wa =>
                              (hexVal b2).bind fun wb =>
                              (hexVal c2).bind fun wc =>
                              (hexVal d2).bind fun wd =>
                              let w := ((wa * 16 + wb) * 16 + wc) * 16 + wd
                              if 0xDC00 ≤ w ∧ w ≤ 0xDFFF then
                                (parseStrGo fuel r5).map (fun p =>
                                  (Char.ofNat (0x10000 + (v - 0xD800) * 0x400 +
                                    (w - 0xDC00)) :: p.1, p.2))
                              else none
                            | _ => none
                          else if 0xDC00 ≤ v ∧ v ≤ 0xDFFF then none
                          else (parseStrGo fuel ((cs'.map dumpStrChar).flatten ++
                            '"' :: rest)).map (fun p => (Char.ofNat v :: p.1, p.2))) =
                          some (c :: cs', rest)
                      rw [hx0, hx1, hx2]
                      simp only [Option.some_bind]
                      have hv : ((0 * 16 + 0) * 16 + c.toNat / 16) * 16 + c.toNat % 16 =
                          c.toNat := by
                        omega
                      rw [hv, if_neg (by omega), if_neg (by omega), hihR,
                        Char.ofNat_toNat]
                      rfl
                    · -- ordinary character, emitted verbatim
                      have hd : dumpStrChar c = [c] := by
                        unfold dumpStrChar
                        rw [if_neg h1, if_neg h2, if_neg h3, if_neg h4, if_neg h5,
                          if_neg h6, if_neg h7, if_neg h8]
                      rw [hd]
                      show parseStrGo (fuel + 1)
                          (c :: ((cs'.map dumpStrChar).flatten ++ '"' :: rest)) =
                          some (c :: cs', rest)
                      unfold parseStrGo
                      rw [if_neg h1, if_neg h2, if_neg h8, hihR]
                      rfl

theorem WFFields_append (a b : List (String × JsonValue))
    (ha : WFFields a) (hb : WFFields b) : WFFields (a ++ b) := by
  induction a with
  | nil => simpa using hb
  | cons p a' ih =>
    rcases p with ⟨k, v⟩
    rw [List.cons_append]
    have h1 : WF v ∧ WFFields a' := by simpa [WFFields] using ha
    have h2 := ih h1.2
    simpa [WFFields] using ⟨h1.1, h2⟩

theorem WFElems_append (a b : List JsonValue)
    (ha : WFElems a) (hb : WFElems b) : WFElems (a ++ b) := by
  induction a with
  | nil => simpa using hb
  | cons x a' ih =>
    rw [List.cons_append]
    have h1 : WF x ∧ WFElems a' := by simpa [WFElems] using ha
    have h2 := ih h1.2
    simpa [WFElems] using ⟨h1.1, h2⟩

theorem insertPair_nodup (acc : List (String × JsonValue)) (k : String) (v : JsonValue)
    (h : (acc.map Prod.fst).Nodup) :
    ((insertPair acc k v).map Prod.fst).Nodup := by
  unfold insertPair
  split
  · have heq : (acc.map (fun p => if p.1 == k then (k, v) else p)).map Prod.fst =
        acc.map Prod.fst := by
      rw [List.map_map]
      apply List.map_congr_left
      intro p _
      by_cases hpk : p.1 == k
      · simp only [Function.comp_apply, if_pos hpk]
        exact (beq_iff_eq.mp hpk).symm
      · simp only [Function.comp_apply, if_neg hpk]
    rw [heq]
    exact h
  · rename_i hany
    rw [List.map_append, List.nodup_append]
    refine ⟨h, by simp, ?_⟩
    intro a ha hb
    have hak : a = k := by simpa using hb
    subst hak
    obtain ⟨p, hp, hpk⟩ := List.mem_map.mp ha
    exact hany (List.any_eq_true.mpr ⟨p, hp, by simp [hpk]⟩)

theorem WFFields_cons (k : String) (v : JsonValue) (fs : List (String × JsonValue)) :
    WFFields ((k, v) :: fs) ↔ WF v ∧ WFFields fs := by
  simp [WFFields]

theorem WFElems_cons (x : JsonValue) (xs : List JsonValue) :
    WFElems (x :: xs) ↔ WF x ∧ WFElems xs := by
  simp [WFElems]

theorem insertPair_wf (acc : List (String × JsonValue)) (k : String) (v : JsonValue)
    (hw : WFFields acc) (hv : WF v) : WFFields (insertPair acc k v) := by
  unfold insertPair
  split
  · clear * - hw hv
    induction acc with
    | nil => simp [WFFields]
    | cons p acc' ih =>
      rcases p with ⟨k', v'⟩
      have h1 : WF v' ∧ WFFields acc' := by
        rw [← WFFields_cons]
        exact hw
      rw [List.map_cons]
      by_cases hpk : (k', v').1 == k
      · rw [if_pos hpk]
        exact (WFFields_cons _ _ _).mpr ⟨hv, ih h1.2⟩
      · rw [if_neg hpk]
        exact (WFFields_cons _ _ _).mpr ⟨h1.1, ih h1.2⟩
  · exact WFFields_append acc [(k, v)] hw ((WFFields_cons _ _ _).mpr ⟨hv, by simp [WFFields]⟩)

theorem insertPair_append_of_not_mem (acc : List (String × JsonValue)) (k : String)
    (v : JsonValue) (h : k ∉ acc.map Prod.fst) :
    insertPair acc k v = acc ++ [(k, v)] := by
  unfold insertPair
  rw [if_neg (by
    intro hany
    obtain ⟨p, hp, hpk⟩ := List.any_eq_true.mp hany
    exact h (by
      have : p.1 = k := by simpa using hpk
      exact this ▸ List.mem_map_of_mem Prod.fst hp))]

theorem WF_null : WF .null := by simp [WF]

theorem WF_bool (b : Bool) : WF (.bool b) := by simp [WF]

theorem WF_str (s : String) : WF (.str s) := by simp [WF]

theorem WF_num_iff (lex : String) : WF (.num lex) ↔ ValidNumLex lex := by simp [WF]

theorem WF_arr_iff (xs : List JsonValue) : WF (.arr xs) ↔ WFElems xs := by simp [WF]

theorem WF_obj_iff (fs : List (String × JsonValue)) :
    WF (.obj fs) ↔ (fs.map Prod.fst).Nodup ∧ WFFields fs := by simp [WF]

theorem parseInv (fuel : Nat) :
    (∀ l v r, parseValue fuel l = some (v, r) → WF v) ∧
    (∀ l acc fs r, parseMembers fuel l acc = some (fs, r) →
      (acc.map Prod.fst).Nodup → WFFields acc →
      (fs.map Prod.fst).Nodup ∧ WFFields fs) ∧
    (∀ l acc xs r, parseElems fuel l acc = some (xs, r) → WFElems acc → WFElems xs) := by
  induction fuel with
  | zero =>
    refine ⟨?_, ?_, ?_⟩
    · intro l v r h; cases h
    · intro l acc fs r h _ _; cases h
    · intro l acc xs r h _; cases h
  | succ fuel ih =>
    obtain ⟨ihV, ihM, ihE⟩ := ih
    refine ⟨?_, ?_, ?_⟩
    · intro l v r h
      unfold parseValue at h
      split at h
      · cases h
      · rename_i c r'
        split at h
        · -- string
          cases hs : parseStringBody r' with
          | none => rw [hs] at h; cases h
          | some p =>
            rw [hs] at h
            have hpair := Option.some.inj h
            obtain ⟨hv, _⟩ := Prod.mk.injEq _ _ _ _ |>.mp hpair
            rw [← hv]
            exact WF_str _
        · split at h
          · -- object
            split at h
            · have hpair := Option.some.inj h
              obtain ⟨hv, _⟩ := Prod.mk.injEq _ _ _ _ |>.mp hpair
              rw [← hv]
              exact (WF_obj_iff _).mpr ⟨by simp, by simp [WFFields]⟩
            · rename_i r2 hne
              cases hm : parseMembers fuel (r'.dropWhile jsonWs) [] with
              | none => rw [hm] at h; cases h
              | some p =>
                rw [hm] at h
                have hpair := Option.some.inj h
                obtain ⟨hv, _⟩ := Prod.mk.injEq _ _ _ _ |>.mp hpair
                rw [← hv]
                exact (WF_obj_iff _).mpr
                  (ihM _ _ _ _ hm (by simp) (by simp [WFFields]))
          · split at h
            · -- array
              split at h
              · have hpair := Option.some.inj h
                obtain ⟨hv, _⟩ := Prod.mk.injEq _ _ _ _ |>.mp hpair
                rw [← hv]
                exact (WF_arr_iff _).mpr (by simp [WFElems])
              · rename_i r2 hne
                cases hm : parseElems fuel (r'.dropWhile jsonWs) [] with
                | none => rw [hm] at h; cases h
                | some p =>
                  rw [hm] at h
                  have hpair := Option.some.inj h
                  obtain ⟨hv, _⟩ := Prod.mk.injEq _ _ _ _ |>.mp hpair
                  rw [← hv]
                  exact (WF_arr_iff _).mpr (ihE _ _ _ _ hm (by simp [WFElems]))
            · split at h
              · -- null
                have hpair := Option.some.inj h
                obtain ⟨hv, _⟩ := Prod.mk.injEq _ _ _ _ |>.mp hpair
                rw [← hv]
                exact WF_null
              · split at h
                · have hpair := Option.some.inj h
                  obtain ⟨hv, _⟩ := Prod.mk.injEq _ _ _ _ |>.mp hpair
                  rw [← hv]
                  exact WF_bool _
                · split at h
                  · have hpair := Option.some.inj h
                    obtain ⟨hv, _⟩ := Prod.mk.injEq _ _ _ _ |>.mp hpair
                    rw [← hv]
                    exact WF_bool _
                  · -- number
                    cases hn : parseNumber (c :: r') with
                    | none => rw [hn] at h; cases h
                    | some p =>
                      rcases p with ⟨lex, rr⟩
                      rw [hn] at h
                      have hpair := Option.some.inj h
                      obtain ⟨hv, _⟩ := Prod.mk.injEq _ _ _ _ |>.mp hpair
                      rw [← hv]
                      refine (WF_num_iff _).mpr ?_
                      unfold ValidNumLex
                      have h2 := parseNumber_append (c :: r') lex rr [] hn (Or.inl rfl)
                      rw [List.append_nil] at h2
                      exact h2
    · intro l acc fs r h hnd hwf
      unfold parseMembers at h
      split at h
      · rename_i r'
        split at h
        · cases h
        · rename_i p k r1 heqs
          split at h
          · rename_i r2
            split at h
            · cases h
            · rename_i q v r3 heqv
              have hwfv : WF v := ihV _ _ _ heqv
              split at h
              · have hpair := Option.some.inj h
                obtain ⟨hf, _⟩ := Prod.mk.injEq _ _ _ _ |>.mp hpair
                rw [← hf]
                exact ⟨insertPair_nodup _ _ _ hnd, insertPair_wf _ _ _ hwf hwfv⟩
              · exact ihM _ _ _ _ h (insertPair_nodup _ _ _ hnd)
                  (insertPair_wf _ _ _ hwf hwfv)
              · cases h
          · cases h
      · cases h
    · intro l acc xs r h hacc
      unfold parseElems at h
      split at h
      · cases h
      · rename_i p v r1 heqv
        have hwfv : WF v := ihV _ _ _ heqv
        split at h
        · have hpair := Option.some.inj h
          obtain ⟨hx, _⟩ := Prod.mk.injEq _ _ _ _ |>.mp hpair
          rw [← hx]
          exact WFElems_append acc [v] hacc ((WFElems_cons _ _).mpr ⟨hwfv, by simp [WFElems]⟩)
        · exact ihE _ _ _ _ h
            (WFElems_append acc [v] hacc ((WFElems_cons _ _).mpr ⟨hwfv, by simp [WFElems]⟩))
        · cases h

theorem json_loadsL_wf (l : List Char) (v : JsonValue)
    (h : json_loadsL l = some v) : WF v := by
  unfold json_loadsL at h
  simp only [] at h
  split at h
  · rename_i p w r heq
    split at h
    · exact (Option.some.inj h) ▸ (parseInv _).1 _ _ _ heq
    · cases h
  · cases h

/-! ## Round-trip development: equation and head lemmas -/

theorem dumpsV_null_eq : dumpsV .null = ['n','u','l','l'] := by
  simp only [dumpsV]

theorem dumpsV_true_eq : dumpsV (.bool true) = ['t','r','u','e'] := by
  simp only [dumpsV]

theorem dumpsV_false_eq : dumpsV (.bool false) = ['f','a','l','s','e'] := by
  simp only [dumpsV]

theorem dumpsV_num_eq (lex : String) : dumpsV (.num lex) = lex.data := by simp [dumpsV]

theorem dumpsV_str_eq (s : String) : dumpsV (.str s) = dumpStr s := by simp [dumpsV]

theorem dumpsV_arr_nil_eq : dumpsV (.arr []) = ['[', ']'] := by simp [dumpsV]

theorem dumpsV_arr_cons_eq (x : JsonValue) (xs : List JsonValue) :
    dumpsV (.arr (x :: xs)) = '[' :: (dumpsElems x xs ++ [']']) := by simp [dumpsV]

theorem dumpsV_obj_nil_eq : dumpsV (.obj []) = ['{', '}'] := by simp [dumpsV]

theorem dumpsV_obj_cons_eq (f : String × JsonValue) (fs : List (String × JsonValue)) :
    dumpsV (.obj (f :: fs)) = '{' :: (dumpsFields f fs ++ ['}']) := by simp [dumpsV]

theorem dumpsElems_nil_eq (x : JsonValue) : dumpsElems x [] = dumpsV x := by
  simp [dumpsElems]

theorem dumpsElems_cons_eq (x y : JsonValue) (ys : List JsonValue) :
    dumpsElems x (y :: ys) = dumpsV x ++ ',' :: ' ' :: dumpsElems y ys := by
  simp [dumpsElems]

theorem dumpsFields_nil_eq (k : String) (v : JsonValue) :
    dumpsFields (k, v) [] = dumpStr k ++ ':' :: ' ' :: dumpsV v := by
  simp [dumpsFields]

theorem dumpsFields_cons_eq (k : String) (v : JsonValue) (f : String × JsonValue)
    (fs : List (String × JsonValue)) :
    dumpsFields (k, v) (f :: fs) =
      dumpStr k ++ ':' :: ' ' :: dumpsV v ++ ',' :: ' ' :: dumpsFields f fs := by
  simp [dumpsFields]

theorem ws_not_digit (c : Char) (h : jsonWs c = true) : c.isDigit = false := by
  simp only [jsonWs, Bool.or_eq_true, decide_eq_true_eq] at h
  rcases h with ((rfl | rfl) | rfl) | rfl <;> decide

theorem digit_not_ws (c : Char) (h : c.isDigit = true) : jsonWs c = false := by
  cases hjw : jsonWs c
  · rfl
  · rw [ws_not_digit c hjw] at h
    cases h

theorem dumpsV_head (v : JsonValue) (h : WF v) :
    ∃ c t, dumpsV v = c :: t ∧ jsonWs c = false ∧ c ≠ ']' ∧ c ≠ '}' := by
  cases v with
  | null => exact ⟨'n', ['u','l','l'], dumpsV_null_eq, by decide, by decide, by decide⟩
  | bool b =>
    cases b with
    | true => exact ⟨'t', ['r','u','e'], dumpsV_true_eq, by decide, by decide, by decide⟩
    | false => exact ⟨'f', ['a','l','s','e'], dumpsV_false_eq, by decide, by decide, by decide⟩
  | num lex =>
    have hv : ValidNumLex lex := (WF_num_iff lex).mp h
    obtain ⟨c, t, hct, hops⟩ := parseNumber_head lex.data lex.data [] hv
    refine ⟨c, t, by rw [dumpsV_num_eq, hct], ?_, ?_, ?_⟩
    · rcases hops with rfl | hd | rfl | rfl
      · decide
      · exact digit_not_ws c hd
      · decide
      · decide
    · rcases hops with rfl | hd | rfl | rfl
      · decide
      · intro he; subst he; exact absurd hd (by decide)
      · decide
      · decide
    · rcases hops with rfl | hd | rfl | rfl
      · decide
      · intro he; subst he; exact absurd hd (by decide)
      · decide
      · decide
  | str s =>
    exact ⟨'"', (s.data.map dumpStrChar).flatten ++ ['"'],
      by rw [dumpsV_str_eq]; rfl, by decide, by decide, by decide⟩
  | arr xs =>
    cases xs with
    | nil => exact ⟨'[', [']'], dumpsV_arr_nil_eq, by decide, by decide, by decide⟩
    | cons x xs =>
      exact ⟨'[', dumpsElems x xs ++ [']'], dumpsV_arr_cons_eq x xs,
        by decide, by decide, by decide⟩
  | obj fs =>
    cases fs with
    | nil => exact ⟨'{', ['}'], dumpsV_obj_nil_eq, by decide, by decide, by decide⟩
    | cons f fs =>
      exact ⟨'{', dumpsFields f fs ++ ['}'], dumpsV_obj_cons_eq f fs,
        by decide, by decide, by decide⟩

theorem dumpsElems_shape (x : JsonValue) (xs : List JsonValue) :
    ∃ s, dumpsElems x xs = dumpsV x ++ s := by
  cases xs with
  | nil => exact ⟨[], by rw [dumpsElems_nil_eq, List.append_nil]⟩
  | cons y ys => exact ⟨',' :: ' ' :: dumpsElems y ys, dumpsElems_cons_eq x y ys⟩

theorem dumpsFields_shape (f : String × JsonValue) (fs : List (String × JsonValue)) :
    ∃ s, dumpsFields f fs = '"' :: s := by
  rcases f with ⟨k, v⟩
  cases fs with
  | nil => exact ⟨_, by rw [dumpsFields_nil_eq]; rfl⟩
  | cons f fs => exact ⟨_, by rw [dumpsFields_cons_eq]; rfl⟩

theorem dropWhile_cons_false (c : Char) (t : List Char) (h : jsonWs c = false) :
    (c :: t).dropWhile jsonWs = c :: t := by
  rw [List.dropWhile_cons]
  simp [h]

theorem dropWhile_dumpsV (v : JsonValue) (rest : List Char) (h : WF v) :
    (dumpsV v ++ rest).dropWhile jsonWs = dumpsV v ++ rest := by
  obtain ⟨c, t, hct, hws, _, _⟩ := dumpsV_head v h
  rw [hct, List.cons_append]
  exact dropWhile_cons_false c (t ++ rest) hws

theorem parseStringBody_rt (cs rest : List Char) :
    parseStringBody ((cs.map dumpStrChar).flatten ++ '"' :: rest) = some (cs, rest) := by
  unfold parseStringBody
  exact parseStrGo_rt _ _ _ (le_refl _)

theorem parseValue_quote (fuel : Nat) (l : List Char) :
    parseValue (fuel+1) ('"' :: l) =
      (parseStringBody l).map (fun p => (JsonValue.str (String.mk p.1), p.2)) := rfl

theorem parseValue_lbrace (fuel : Nat) (l : List Char) :
    parseValue (fuel+1) ('{' :: l) =
      (match l.dropWhile jsonWs with
       | '}' :: r2 => some (JsonValue.obj [], r2)
       | r2 => (parseMembers fuel r2 []).map (fun p => (JsonValue.obj p.1, p.2))) := rfl

theorem parseValue_lbrack (fuel : Nat) (l : List Char) :
    parseValue (fuel+1) ('[' :: l) =
      (match l.dropWhile jsonWs with
       | ']' :: r2 => some (JsonValue.arr [], r2)
       | r2 => (parseElems fuel r2 []).map (fun p => (JsonValue.arr p.1, p.2))) := rfl

theorem parseElems_succ (fuel : Nat) (l : List Char) (acc : List JsonValue) :
    parseElems (fuel+1) l acc =
      (match parseValue fuel l with
      | none => none
      | some (v, r) =>
        match r.dropWhile jsonWs with
        | ']' :: r2 => some (acc ++ [v], r2)
        | ',' :: r2 => parseElems fuel (r2.dropWhile jsonWs) (acc ++ [v])
        | _ => none) := rfl

theorem parseMembers_quote (fuel : Nat) (l : List Char) (acc : List (String × JsonValue)) :
    parseMembers (fuel+1) ('"' :: l) acc =
      (match parseStringBody l with
      | none => none
      | some (k, r1) =>
        match r1.dropWhile jsonWs with
        | ':' :: r2 =>
          match parseValue fuel (r2.dropWhile jsonWs) with
          | none => none
          | some (v, r3) =>
            match r3.dropWhile jsonWs with
            | '}' :: r4 => some (insertPair acc (String.mk k) v, r4)
            | ',' :: r4 => parseMembers fuel (r4.dropWhile jsonWs) (insertPair acc (String.mk k) v)
            | _ => none
        | _ => none) := rfl
theorem num_head_ne (c : Char) (hops : c = '-' ∨ c.isDigit = true ∨ c = 'N' ∨ c = 'I')
    (d : Char) (hd : d.isDigit = false) (hd2 : d ≠ '-' ∧ d ≠ 'N' ∧ d ≠ 'I') : c ≠ d := by
  rcases hops with rfl | hdig | rfl | rfl
  · exact fun he => hd2.1 he.symm
  · intro he
    rw [he] at hdig
    rw [hdig] at hd
    cases hd
  · exact fun he => hd2.2.1 he.symm
  · exact fun he => hd2.2.2 he.symm

theorem parseValue_other (fuel : Nat) (c : Char) (r : List Char)
    (h1 : c ≠ '"') (h2 : c ≠ '{') (h3 : c ≠ '[')
    (h4 : c ≠ 'n') (h5 : c ≠ 't') (h6 : c ≠ 'f') :
    parseValue (fuel+1) (c :: r) =
      (parseNumber (c :: r)).map (fun p => (JsonValue.num (String.mk p.1), p.2)) := by
  have e4 : leadsWith ['n','u','l','l'] (c :: r) = false := by
    simp [leadsWith, decide_eq_false (fun he : 'n' = c => h4 he.symm)]
  have e5 : leadsWith ['t','r','u','e'] (c :: r) = false := by
    simp [leadsWith, decide_eq_false (fun he : 't' = c => h5 he.symm)]
  have e6 : leadsWith ['f','a','l','s','e'] (c :: r) = false := by
    simp [leadsWith, decide_eq_false (fun he : 'f' = c => h6 he.symm)]
  show (if c = '"' then
      (parseStringBody r).map (fun p => (JsonValue.str (String.mk p.1), p.2))
    else if c = '{' then
      match r.dropWhile jsonWs with
      | '}' :: r2 => some (JsonValue.obj [], r2)
      | r2 => (parseMembers fuel r2 []).map (fun p => (JsonValue.obj p.1, p.2))
    else if c = '[' then
      match r.dropWhile jsonWs with
      | ']' :: r2 => some (JsonValue.arr [], r2)
      | r2 => (parseElems fuel r2 []).map (fun p => (JsonValue.arr p.1, p.2))
    else if leadsWith ['n','u','l','l'] (c :: r) = true then
      some (JsonValue.null, (c :: r).drop 4)
    else if leadsWith ['t','r','u','e'] (c :: r) = true then
      some (JsonValue.bool true, (c :: r).drop 4)
    else if leadsWith ['f','a','l','s','e'] (c :: r) = true then
      some (JsonValue.bool false, (c :: r).drop 5)
    else (parseNumber (c :: r)).map (fun p => (JsonValue.num (String.mk p.1), p.2))) =
      (parseNumber (c :: r)).map (fun p => (JsonValue.num (String.mk p.1), p.2))
  rw [if_neg h1, if_neg h2, if_neg h3, e4, e5, e6]
  simp

theorem needF_pos (v : JsonValue) : 0 < needF v := by
  cases v with
  | null => simp [needF]
  | bool b => simp [needF]
  | num lex => simp [needF]
  | str s => simp [needF]
  | arr xs =>
    cases xs with
    | nil => simp [needF]
    | cons x xs =>
      have h : needF (JsonValue.arr (x :: xs)) = 1 + needElems x xs := by simp [needF]
      omega
  | obj fs =>
    cases fs with
    | nil => simp [needF]
    | cons f fs =>
      have h : needF (JsonValue.obj (f :: fs)) = 1 + needMembers f fs := by simp [needF]
      omega

theorem needElems_pos (x : JsonValue) (xs : List JsonValue) : 0 < needElems x xs := by
  cases xs with
  | nil =>
    have h : needElems x [] = 1 + needF x := by simp [needElems]
    omega
  | cons y ys =>
    have h : needElems x (y :: ys) = 1 + max (needF x) (needElems y ys) := by simp [needElems]
    omega

theorem needMembers_pos (f : String × JsonValue) (fs : List (String × JsonValue)) :
    0 < needMembers f fs := by
  rcases f with ⟨k, v⟩
  cases fs with
  | nil =>
    have h : needMembers (k, v) [] = 1 + needF v := by simp [needMembers]
    omega
  | cons f fs =>
    have h : needMembers (k, v) (f :: fs) = 1 + max (needF v) (needMembers f fs) := by
      simp [needMembers]
    omega

mutual

theorem needF_le (v : JsonValue) : needF v ≤ (dumpsV v).length + 1 := by
  cases v with
  | null =>
    have h : needF JsonValue.null = 1 := by simp [needF]
    omega
  | bool b =>
    have h : needF (JsonValue.bool b) = 1 := by simp [needF]
    omega
  | num lex =>
    have h : needF (JsonValue.num lex) = 1 := by simp [needF]
    omega
  | str s =>
    have h : needF (JsonValue.str s) = 1 := by simp [needF]
    omega
  | arr xs =>
    cases xs with
    | nil =>
      have h : needF (JsonValue.arr []) = 1 := by simp [needF]
      omega
    | cons x xs =>
      have h : needF (JsonValue.arr (x :: xs)) = 1 + needElems x xs := by simp [needF]
      have h2 := needElems_le x xs
      rw [h, dumpsV_arr_cons_eq]
      simp only [List.length_cons, List.length_append]
      omega
  | obj fs =>
    cases fs with
    | nil =>
      have h : needF (JsonValue.obj []) = 1 := by simp [needF]
      omega
    | cons f fs =>
      have h : needF (JsonValue.obj (f :: fs)) = 1 + needMembers f fs := by simp [needF]
      have h2 := needMembers_le f fs
      rw [h, dumpsV_obj_cons_eq]
      simp only [List.length_cons, List.length_append]
      omega
termination_by sizeOf v
decreasing_by all_goals (simp; try omega)

theorem needElems_le (x : JsonValue) (xs : List JsonValue) :
    needElems x xs ≤ (dumpsElems x xs).length + 2 := by
  cases xs with
  | nil =>
    have h : needElems x [] = 1 + needF x := by simp [needElems]
    have h2 := needF_le x
    rw [h, dumpsElems_nil_eq]
    omega
  | cons y ys =>
    have h : needElems x (y :: ys) = 1 + max (needF x) (needElems y ys) := by simp [needElems]
    have h2 := needF_le x
    have h3 := needElems_le y ys
    rw [h, dumpsElems_cons_eq]
    simp only [List.length_append, List.length_cons]
    omega
termination_by sizeOf x + sizeOf xs
decreasing_by all_goals (simp; try omega)

theorem needMembers_le (f : String × JsonValue) (fs : List (String × JsonValue)) :
    needMembers f fs ≤ (dumpsFields f fs).length + 2 := by
  rcases f with ⟨k, v⟩
  cases fs with
  | nil =>
    have h : needMembers (k, v) [] = 1 + needF v := by simp [needMembers]
    have h2 := needF_le v
    rw [h, dumpsFields_nil_eq]
    simp only [List.length_append, List.length_cons]
    omega
  | cons f fs =>
    have h : needMembers (k, v) (f :: fs) = 1 + max (needF v) (needMembers f fs) := by
      simp [needMembers]
    have h2 := needF_le v
    have h3 := needMembers_le f fs
    rw [h, dumpsFields_cons_eq]
    simp only [List.length_append, List.length_cons]
    omega
termination_by sizeOf f + sizeOf fs
decreasing_by all_goals (simp; try omega)

end
theorem rtAll (fuel : Nat) :
    (∀ v rest, WF v → delimOk rest → needF v ≤ fuel →
       parseValue fuel (dumpsV v ++ rest) = some (v, rest)) ∧
    (∀ k v fs acc rest, WFFields ((k, v) :: fs) →
       ((acc ++ (k, v) :: fs).map Prod.fst).Nodup →
       needMembers (k, v) fs ≤ fuel →
       parseMembers fuel (dumpsFields (k, v) fs ++ '}' :: rest) acc =
         some (acc ++ (k, v) :: fs, rest)) ∧
    (∀ x xs acc rest, WFElems (x :: xs) → needElems x xs ≤ fuel →
       parseElems fuel (dumpsElems x xs ++ ']' :: rest) acc =
         some (acc ++ x :: xs, rest)) := by
  induction fuel with
  | zero =>
    refine ⟨?_, ?_, ?_⟩
    · intro v rest _ _ hn
      exact absurd hn (by have := needF_pos v; omega)
    · intro k v fs acc rest _ _ hn
      exact absurd hn (by have := needMembers_pos (k, v) fs; omega)
    · intro x xs acc rest _ hn
      exact absurd hn (by have := needElems_pos x xs; omega)
  | succ fuel ih =>
    obtain ⟨ihV, ihM, ihE⟩ := ih
    refine ⟨?_, ?_, ?_⟩
    · intro v rest hw hd hn
      cases v with
      | null =>
        rw [dumpsV_null_eq]
        rfl
      | bool b =>
        cases b with
        | true =>
          rw [dumpsV_true_eq]
          rfl
        | false =>
          rw [dumpsV_false_eq]
          rfl
      | num lex =>
        have hv : ValidNumLex lex := (WF_num_iff lex).mp hw
        obtain ⟨c, t, hct, hops⟩ := parseNumber_head lex.data lex.data [] hv
        rw [dumpsV_num_eq, hct, List.cons_append]
        rw [parseValue_other fuel c (t ++ rest)
          (num_head_ne c hops '"' (by decide) ⟨by decide, by decide, by decide⟩)
          (num_head_ne c hops '{' (by decide) ⟨by decide, by decide, by decide⟩)
          (num_head_ne c hops '[' (by decide) ⟨by decide, by decide, by decide⟩)
          (num_head_ne c hops 'n' (by decide) ⟨by decide, by decide, by decide⟩)
          (num_head_ne c hops 't' (by decide) ⟨by decide, by decide, by decide⟩)
          (num_head_ne c hops 'f' (by decide) ⟨by decide, by decide, by decide⟩)]
        rw [← List.cons_append, ← hct]
        rw [parseNumber_append lex.data lex.data [] rest hv (delimOk_numDelim rest hd)]
        rfl
      | str s =>
        rw [dumpsV_str_eq, dumpStr]
        simp only [List.cons_append, List.append_assoc, List.singleton_append, List.nil_append]
        rw [parseValue_quote, parseStringBody_rt]
        rfl
      | arr xs =>
        cases xs with
        | nil =>
          rw [dumpsV_arr_nil_eq]
          rfl
        | cons x xs =>
          have hwe : WFElems (x :: xs) := (WF_arr_iff _).mp hw
          have hwx : WF x := ((WFElems_cons x xs).mp hwe).1
          have hne : needElems x xs ≤ fuel := by
            have h : needF (JsonValue.arr (x :: xs)) = 1 + needElems x xs := by simp [needF]
            omega
          rw [dumpsV_arr_cons_eq]
          simp only [List.cons_append, List.append_assoc, List.singleton_append, List.nil_append]
          rw [parseValue_lbrack]
          obtain ⟨c, t, hct, hws, hcne1, hcne2⟩ := dumpsV_head x hwx
          obtain ⟨s2, hs2⟩ := dumpsElems_shape x xs
          have hde : dumpsElems x xs ++ ']' :: rest = c :: (t ++ (s2 ++ ']' :: rest)) := by
            rw [hs2, hct]
            simp
          rw [hde, dropWhile_cons_false c _ hws]
          split
          · rename_i r2 heq
            exfalso
            injection heq with hc _
            exact hcne1 hc
          · rw [← hde]
            rw [ihE x xs [] rest hwe hne]
            rfl
      | obj fs =>
        cases fs with
        | nil =>
          rw [dumpsV_obj_nil_eq]
          rfl
        | cons f fs =>
          rcases f with ⟨k, v⟩
          have hwo := (WF_obj_iff ((k, v) :: fs)).mp hw
          have hnm : needMembers (k, v) fs ≤ fuel := by
            have h : needF (JsonValue.obj ((k, v) :: fs)) = 1 + needMembers (k, v) fs := by
              simp [needF]
            omega
          rw [dumpsV_obj_cons_eq]
          simp only [List.cons_append, List.append_assoc, List.singleton_append, List.nil_append]
          rw [parseValue_lbrace]
          obtain ⟨s2, hs2⟩ := dumpsFields_shape (k, v) fs
          have hde : dumpsFields (k, v) fs ++ '}' :: rest = '"' :: (s2 ++ '}' :: rest) := by
            rw [hs2]
            rfl
          rw [hde]
          show (parseMembers fuel ('"' :: (s2 ++ '}' :: rest)) []).map
              (fun p => (JsonValue.obj p.1, p.2)) = some (JsonValue.obj ((k, v) :: fs), rest)
          rw [← hde]
          rw [ihM k v fs [] rest hwo.2 (by simpa using hwo.1) hnm]
          rfl
    · intro k v fs acc rest hwf hnd hnm
      have hwv : WF v := ((WFFields_cons k v fs).mp hwf).1
      have hwfs : WFFields fs := ((WFFields_cons k v fs).mp hwf).2
      have hkn : k ∉ acc.map Prod.fst := by
        rw [List.map_append, List.nodup_append] at hnd
        intro hk
        exact (hnd.2.2 hk) (by simp)
      cases fs with
      | nil =>
        have hnfv : needF v ≤ fuel := by
          have h : needMembers (k, v) [] = 1 + needF v := by simp [needMembers]
          omega
        rw [dumpsFields_nil_eq, dumpStr]
        simp only [List.cons_append, List.append_assoc, List.singleton_append, List.nil_append]
        rw [parseMembers_quote, parseStringBody_rt]
        show (match parseValue fuel ((dumpsV v ++ '}' :: rest).dropWhile jsonWs) with
          | none => none
          | some (v', r3) =>
            match r3.dropWhile jsonWs with
            | '}' :: r4 => some (insertPair acc (String.mk k.data) v', r4)
            | ',' :: r4 =>
              parseMembers fuel (r4.dropWhile jsonWs) (insertPair acc (String.mk k.data) v')
            | _ => none) = some (acc ++ (k, v) :: [], rest)
        rw [dropWhile_dumpsV v ('}' :: rest) hwv]
        rw [ihV v ('}' :: rest) hwv (Or.inr (Or.inr (Or.inl rfl))) hnfv]
        show some (insertPair acc k v, rest) = some (acc ++ (k, v) :: [], rest)
        rw [insertPair_append_of_not_mem acc k v hkn]
      | cons f' fs' =>
        rcases f' with ⟨k', v'⟩
        have heqn : needMembers (k, v) ((k', v') :: fs') =
            1 + max (needF v) (needMembers (k', v') fs') := by
          simp [needMembers]
        have hnfv : needF v ≤ fuel := by omega
        have hnm2 : needMembers (k', v') fs' ≤ fuel := by omega
        rw [dumpsFields_cons_eq, dumpStr]
        simp only [List.cons_append, List.append_assoc, List.singleton_append, List.nil_append]
        rw [parseMembers_quote, parseStringBody_rt]
        show (match parseValue fuel
            ((dumpsV v ++ ',' :: ' ' :: (dumpsFields (k', v') fs' ++ '}' :: rest)).dropWhile
              jsonWs) with
          | none => none
          | some (w, r3) =>
            match r3.dropWhile jsonWs with
            | '}' :: r4 => some (insertPair acc (String.mk k.data) w, r4)
            | ',' :: r4 =>
              parseMembers fuel (r4.dropWhile jsonWs) (insertPair acc (String.mk k.data) w)
            | _ => none) = some (acc ++ (k, v) :: (k', v') :: fs', rest)
        rw [dropWhile_dumpsV v _ hwv]
        rw [ihV v (',' :: ' ' :: (dumpsFields (k', v') fs' ++ '}' :: rest)) hwv
          (Or.inr (Or.inl rfl)) hnfv]
        show parseMembers fuel ((dumpsFields (k', v') fs' ++ '}' :: rest).dropWhile jsonWs)
            (insertPair acc k v) = some (acc ++ (k, v) :: (k', v') :: fs', rest)
        obtain ⟨s3, hs3⟩ := dumpsFields_shape (k', v') fs'
        have hdw : (dumpsFields (k', v') fs' ++ '}' :: rest).dropWhile jsonWs =
            dumpsFields (k', v') fs' ++ '}' :: rest := by
          rw [hs3, List.cons_append]
          exact dropWhile_cons_false _ _ (by decide)
        rw [hdw, insertPair_append_of_not_mem acc k v hkn]
        have hnd2 : (((acc ++ [(k, v)]) ++ (k', v') :: fs').map Prod.fst).Nodup := by
          rw [List.append_assoc, List.singleton_append]
          exact hnd
        rw [ihM k' v' fs' (acc ++ [(k, v)]) rest hwfs hnd2 hnm2]
        simp
    · intro x xs acc rest hwe hne
      have hwx : WF x := ((WFElems_cons x xs).mp hwe).1
      cases xs with
      | nil =>
        have hnx : needF x ≤ fuel := by
          have h : needElems x ([] : List JsonValue) = 1 + needF x := by simp [needElems]
          omega
        rw [dumpsElems_nil_eq, parseElems_succ]
        rw [ihV x (']' :: rest) hwx (Or.inr (Or.inr (Or.inr rfl))) hnx]
        rfl
      | cons y ys =>
        have heqn : needElems x (y :: ys) = 1 + max (needF x) (needElems y ys) := by
          simp [needElems]
        have hnx : needF x ≤ fuel := by omega
        have hny : needElems y ys ≤ fuel := by omega
        have hwys : WFElems (y :: ys) := ((WFElems_cons x (y :: ys)).mp hwe).2
        rw [dumpsElems_cons_eq]
        simp only [List.cons_append, List.append_assoc]
        rw [parseElems_succ]
        rw [ihV x (',' :: ' ' :: (dumpsElems y ys ++ ']' :: rest)) hwx
          (Or.inr (Or.inl rfl)) hnx]
        show parseElems fuel ((dumpsElems y ys ++ ']' :: rest).dropWhile jsonWs) (acc ++ [x]) =
          some (acc ++ x :: y :: ys, rest)
        obtain ⟨c, t, hct, hws, _, _⟩ := dumpsV_head y (((WFElems_cons y ys).mp hwys).1)
        obtain ⟨s2, hs2⟩ := dumpsElems_shape y ys
        have hdw : (dumpsElems y ys ++ ']' :: rest).dropWhile jsonWs =
            dumpsElems y ys ++ ']' :: rest := by
          rw [hs2, hct]
          simp only [List.cons_append, List.append_assoc]
          exact dropWhile_cons_false _ _ hws
        rw [hdw, ihE y ys (acc ++ [x]) rest hwys hny]
        simp
theorem json_loads_dumps (v : JsonValue) (h : WF v) : json_loadsL (dumpsV v) = some v := by
  unfold json_loadsL
  simp only []
  have hdw : (dumpsV v).dropWhile jsonWs = dumpsV v := by
    obtain ⟨c, t, hct, hws, _, _⟩ := dumpsV_head v h
    rw [hct]
    exact dropWhile_cons_false c t hws
  rw [hdw]
  have hfuel : needF v ≤ 4 * (dumpsV v).length + 8 := by
    have := needF_le v
    omega
  have hrt := (rtAll (4 * (dumpsV v).length + 8)).1 v [] h (Or.inl rfl) hfuel
  rw [List.append_nil] at hrt
  rw [hrt]
  rfl

/-! ## Claims -/

/-- Claim C1 (code_bug): the claim says `validate_and_parse_json` never
raises past its boundary on any input, valid JSON scalars included.  The
code contradicts it: on the bare number `5`, Tier 1's membership test
raises a `TypeError` that its bare `except` catches, but Tier 2 then
parses `5` again, finds it truthy, and evaluates `"perguntas" in 5` at
src/main.py:100 — outside any `try` — so the `TypeError` escapes to the
caller.  This theorem evaluates the code at that failing input. -/
theorem claim_C1_failing_eval : validate_and_parse_json "5" = .error .typeError := by
  rfl

/-- Claim C2, counterexample: on the empty string every tier fails and
the returned value is the diagnostic dict of src/main.py:109-113, which
has no `perguntas` key at all — refuting "the result contains a
`perguntas` mapping with at least one non-empty question entry" and the
"fixed, non-empty default QuestionSet". -/
theorem claim_C2_counterexample :
    validate_and_parse_json "" = .ok (errorDict "") ∧
    lookupKey (errorDict "") "perguntas" = none := by
  exact ⟨rfl, rfl⟩

/-- Claim C2, amended: when Tier 1 fails, Tier 2 falls through, and the
Tier-3 scan finds nothing, the pipeline returns a *diagnostic* object —
`{"erro": ..., "raw": <original text>, "sugestao": ...}` — which carries
the original raw text as payload but contains no `perguntas` key and no
default QuestionSet. -/
theorem claim_C2_amended (s : String) (h1 : tier1 s = none)
    (h2 : tier2 s = .ok none) (h3 : extract_json_manually s = none) :
    validate_and_parse_json s = .ok (errorDict s) ∧
    lookupKey (errorDict s) "raw" = some (.str s) ∧
    lookupKey (errorDict s) "perguntas" = none := by
  refine ⟨?_, rfl, rfl⟩
  unfold validate_and_parse_json
  rw [h1, h2, h3]

/-- Claim C2, witness: the amended statement applied at the concrete
input `""`. -/
theorem claim_C2_witness :
    tier1 "" = none ∧ tier2 "" = .ok none ∧ extract_json_manually "" = none ∧
    (validate_and_parse_json "" = .ok (errorDict "") ∧
     lookupKey (errorDict "") "raw" = some (.str "") ∧
     lookupKey (errorDict "") "perguntas" = none) :=
  ⟨rfl, rfl, rfl, claim_C2_amended "" rfl rfl rfl⟩

/-- Claim C3, counterexample: for `{"perguntas": 5}` parsing succeeds and
the document contains a `perguntas` field whose value is *not* a mapping,
yet Tier 1 succeeds and returns the document — refuting the "only if ...
whose value is itself a mapping" direction of the claim (src/main.py:93
tests only `"perguntas" in result`). -/
theorem claim_C3_counterexample :
    validate_and_parse_json "\x7b\"perguntas\": 5\x7d" =
      .ok (.obj [("perguntas", .num "5")]) ∧
    lookupKey (.obj [("perguntas", .num "5")]) "perguntas" = some (.num "5") := by
  exact ⟨rfl, rfl⟩

/-- Claim C3, amended: when the strict parse yields a dict, Tier 1
succeeds (returning the document unchanged) if and only if the key
`perguntas` is present — with *any* value, mapping or not; and on the
claim's concrete two-entry input, the result is exactly those two
entries, unchanged. -/
theorem claim_C3_amended :
    (∀ (s : String) (fs : List (String × JsonValue)),
      json_loadsL s.data = some (.obj fs) →
      (tier1 s = some (.obj fs) ↔ keyMem fs "perguntas" = true)) ∧
    validate_and_parse_json "\x7b\"perguntas\": \x7b\"pergunta_1\": \"A?\", \"pergunta_2\": \"B?\"\x7d\x7d" =
      .ok (.obj [("perguntas",
        .obj [("pergunta_1", .str "A?"), ("pergunta_2", .str "B?")])]) := by
  constructor
  · intro s fs h
    unfold tier1
    rw [h]
    show (match pyIn "perguntas" (.obj fs) with
          | .ok true => some (JsonValue.obj fs)
          | _ => none) = some (JsonValue.obj fs) ↔ keyMem fs "perguntas" = true
    rw [pyIn]
    cases hk : keyMem fs "perguntas" <;> simp [hk]
  · rfl

/-- Claim C3, witness: the iff of the amended claim instantiated at the
concrete dict input `{"perguntas": 5}`. -/
theorem claim_C3_witness :
    json_loadsL "\x7b\"perguntas\": 5\x7d".data = some (.obj [("perguntas", .num "5")]) ∧
    (tier1 "\x7b\"perguntas\": 5\x7d" = some (.obj [("perguntas", .num "5")]) ↔
      keyMem [("perguntas", .num "5")] "perguntas" = true) :=
  ⟨rfl, claim_C3_amended.1 "\x7b\"perguntas\": 5\x7d" [("perguntas", .num "5")] rfl⟩

/-- Claim C5, counterexample: `{"perguntas": {}}` parses to a `perguntas`
mapping with zero entries, and the pipeline returns it as a success
instead of failing the attempt — refuting "an empty mapping is never
returned as a success" (the code has no validation step at all). -/
theorem claim_C5_counterexample :
    validate_and_parse_json "\x7b\"perguntas\": \x7b\x7d\x7d" =
      .ok (.obj [("perguntas", .obj [])]) ∧
    lookupKey (.obj [("perguntas", .obj [])]) "perguntas" = some (.obj []) := by
  exact ⟨rfl, rfl⟩

/-- Claim C5, amended: no validation is applied to a `perguntas`-shaped
result: whenever the strict parse yields a dict containing the key
`perguntas`, the pipeline returns the whole document as a success,
whatever the value is — non-string entries and the empty mapping
included. -/
theorem claim_C5_amended (s : String) (fs : List (String × JsonValue))
    (h : json_loadsL s.data = some (.obj fs)) (hk : keyMem fs "perguntas" = true) :
    validate_and_parse_json s = .ok (.obj fs) := by
  have h1 : tier1 s = some (.obj fs) := by
    unfold tier1
    rw [h]
    show (match pyIn "perguntas" (.obj fs) with
          | .ok true => some (JsonValue.obj fs)
          | _ => none) = some (JsonValue.obj fs)
    rw [pyIn, hk]
  unfold validate_and_parse_json
  rw [h1]

/-- Claim C5, witness: the amended statement applied to a mapping with a
non-string entry, `{"perguntas": {"pergunta_1": 5}}`, returned unchanged. -/
theorem claim_C5_witness :
    json_loadsL "\x7b\"perguntas\": \x7b\"pergunta_1\": 5\x7d\x7d".data =
      some (.obj [("perguntas", .obj [("pergunta_1", .num "5")])]) ∧
    keyMem [("perguntas", JsonValue.obj [("pergunta_1", .num "5")])] "perguntas" = true ∧
    validate_and_parse_json "\x7b\"perguntas\": \x7b\"pergunta_1\": 5\x7d\x7d" =
      .ok (.obj [("perguntas", .obj [("pergunta_1", .num "5")])]) :=
  ⟨rfl, rfl, claim_C5_amended _ _ rfl rfl⟩

/-- Claim C6, counterexample: on the truncated input
`{"perguntas": {"pergunta_1": "What is the scope` the pipeline does *not*
return a Degraded result with a `pergunta_1` entry: it returns the
terminal diagnostic dict, which has no `perguntas` key. -/
theorem claim_C6_counterexample :
    validate_and_parse_json "\x7b\"perguntas\": \x7b\"pergunta_1\": \"What is the scope" =
      .ok (errorDict "\x7b\"perguntas\": \x7b\"pergunta_1\": \"What is the scope") ∧
    lookupKey (errorDict "\x7b\"perguntas\": \x7b\"pergunta_1\": \"What is the scope")
      "perguntas" = none := by
  exact ⟨rfl, rfl⟩

/-- Claim C6, amended: Tier 2 does close the unclosed quote — the cleaned
text is `{"perguntas": {"pergunta_1": "What is the scope"` — but the
reparse still fails because the two braces remain unclosed, Tier 3 finds
no match (its pattern needs a closing quote after the value), and the
pipeline falls through to the terminal diagnostic dict carrying the raw
text. -/
theorem claim_C6_amended :
    cleanTransform "\x7b\"perguntas\": \x7b\"pergunta_1\": \"What is the scope" =
      "\x7b\"perguntas\": \x7b\"pergunta_1\": \"What is the scope\"".data ∧
    clean_and_fix_json "\x7b\"perguntas\": \x7b\"pergunta_1\": \"What is the scope" = none ∧
    extract_json_manually "\x7b\"perguntas\": \x7b\"pergunta_1\": \"What is the scope" = none ∧
    validate_and_parse_json "\x7b\"perguntas\": \x7b\"pergunta_1\": \"What is the scope" =
      .ok (errorDict "\x7b\"perguntas\": \x7b\"pergunta_1\": \"What is the scope") := by
  exact ⟨rfl, rfl, rfl, rfl⟩

/-- Claim C7 (confirmed): when Tier 3 is reached (Tiers 1 and 2 fell
through) and the scan of the *original* raw text — the argument of
`findallPerguntas` is `s.data` itself, not the Tier-2-transformed text —
finds at least one `"pergunta_<digits>": "<value>"` match, the pipeline
returns `{"perguntas": ...}` built from exactly those key/value pairs by
Python-dict insertion; with pairwise-distinct keys (the normal case) the
built dict is literally the match list, in text order, keys verbatim. -/
theorem claim_C7_tier3_extraction (s : String) (ps : List (String × String))
    (h1 : tier1 s = none) (h2 : tier2 s = .ok none)
    (h3 : findallPerguntas s.data = ps) (hne : ps ≠ []) :
    validate_and_parse_json s =
      .ok (.obj [("perguntas",
        .obj ((ps.foldl insertStrPair []).map (fun p => (p.1, JsonValue.str p.2))))]) ∧
    ((ps.map Prod.fst).Nodup → ps.foldl insertStrPair [] = ps) := by
  constructor
  · have hx : extract_json_manually s =
        some (.obj [("perguntas",
          .obj ((ps.foldl insertStrPair []).map (fun p => (p.1, JsonValue.str p.2))))]) := by
      unfold extract_json_manually
      rw [h3]
      cases ps with
      | nil => exact absurd rfl hne
      | cons p ps' =>
        have := foldl_insertStrPair_nonempty p ps'
        simp only [List.isEmpty_eq_true]
        rw [if_neg this]
    unfold validate_and_parse_json
    rw [h1, h2, hx]
  · intro hnd
    have := foldl_insertStrPair_id ps [] (by simpa using hnd)
    simpa using this

/-- Claim C7, witness: the spec's own example — free-form prose with the
literal text `"pergunta_1": "Why?"` embedded — recovers exactly
`{"perguntas": {"pergunta_1": "Why?"}}`. -/
theorem claim_C7_witness :
    tier1 "The model said \"pergunta_1\": \"Why?\" somewhere." = none ∧
    tier2 "The model said \"pergunta_1\": \"Why?\" somewhere." = .ok none ∧
    findallPerguntas "The model said \"pergunta_1\": \"Why?\" somewhere.".data =
      [("pergunta_1", "Why?")] ∧
    validate_and_parse_json "The model said \"pergunta_1\": \"Why?\" somewhere." =
      .ok (.obj [("perguntas", .obj [("pergunta_1", .str "Why?")])]) := by
  refine ⟨rfl, rfl, rfl, ?_⟩
  have h := (claim_C7_tier3_extraction
    "The model said \"pergunta_1\": \"Why?\" somewhere." [("pergunta_1", "Why?")]
    rfl rfl rfl (by simp)).1
  exact h

/-- Claim C8, counterexample: the input
`note "Why is the sky blue, really?" end` has zero key-labeled matches,
and it does contain a quoted substring with a `?` and trimmed length
above 10 (the scan the claim describes would recover it) — yet the
pipeline returns the terminal diagnostic dict: no quoted-question
fallback exists in the code. -/
theorem claim_C8_counterexample :
    findallPerguntas "note \"Why is the sky blue, really?\" end".data = [] ∧
    specQScan "note \"Why is the sky blue, really?\" end" =
      ["Why is the sky blue, really?"] ∧
    validate_and_parse_json "note \"Why is the sky blue, really?\" end" =
      .ok (errorDict "note \"Why is the sky blue, really?\" end") := by
  exact ⟨rfl, rfl, rfl⟩

/-- Claim C8, amended: when the key-labeled scan yields zero matches,
Tier 3 fails immediately — `extract_json_manually` returns `None`
without any further quoted-substring scan — and the pipeline proceeds
directly to the terminal diagnostic dict. -/
theorem claim_C8_amended (s : String) (h : findallPerguntas s.data = []) :
    extract_json_manually s = none ∧
    (tier1 s = none → tier2 s = .ok none →
      validate_and_parse_json s = .ok (errorDict s)) := by
  have hx : extract_json_manually s = none := by
    unfold extract_json_manually
    rw [h]
    rfl
  refine ⟨hx, fun h1 h2 => ?_⟩
  unfold validate_and_parse_json
  rw [h1, h2, hx]

/-- Claim C8, witness: the amended statement applied at the concrete
counterexample input. -/
theorem claim_C8_witness :
    findallPerguntas "note \"Why is the sky blue, really?\" end".data = [] ∧
    (extract_json_manually "note \"Why is the sky blue, really?\" end" = none ∧
     (tier1 "note \"Why is the sky blue, really?\" end" = none →
      tier2 "note \"Why is the sky blue, really?\" end" = .ok none →
      validate_and_parse_json "note \"Why is the sky blue, really?\" end" =
        .ok (errorDict "note \"Why is the sky blue, really?\" end"))) :=
  ⟨rfl, claim_C8_amended "note \"Why is the sky blue, really?\" end" rfl⟩

/-- Claim C9 (confirmed): for any input, the unclosed-quote substitution
maps each line of the trimmed, brace-sliced text through `fixQuoteLine`;
for a line whose final character is a double-quote the pattern
`"([^"]*?)$` still matches — at that closed final quote, with empty
interior — so the line gains a spurious trailing quote. -/
theorem claim_C9_spurious_quote (s : String) (ln : List Char)
    (_hmem : ln ∈ splitNl (sliceBraces (pyStrip s.data)))
    (hq : ln.getLast? = some '"') :
    subU (sliceBraces (pyStrip s.data)) =
      joinNl ((splitNl (sliceBraces (pyStrip s.data))).map fixQuoteLine) ∧
    fixQuoteLine ln = ln ++ ['"'] := by
  constructor
  · exact subUGo_linewise _ _ (le_refl _)
  · have hmemq : '"' ∈ ln := by
      obtain ⟨hne, heq⟩ := List.mem_getLast?_eq_getLast hq
      exact heq ▸ List.getLast_mem hne
    have hcont : ln.contains '"' = true := by
      simpa [List.contains] using hmemq
    unfold fixQuoteLine
    rw [if_pos hcont]

/-- Claim C9, witness: the one-line input `"q"` — a properly closed
string — ends in `"` and gains a spurious trailing quote. -/
theorem claim_C9_witness :
    "\"q\"".data ∈ splitNl (sliceBraces (pyStrip "\"q\"".data)) ∧
    "\"q\"".data.getLast? = some '"' ∧
    (subU (sliceBraces (pyStrip "\"q\"".data)) =
       joinNl ((splitNl (sliceBraces (pyStrip "\"q\"".data))).map fixQuoteLine) ∧
     fixQuoteLine "\"q\"".data = "\"q\"".data ++ ['"']) :=
  ⟨by decide, by decide,
   claim_C9_spurious_quote "\"q\"" "\"q\"".data (by decide) (by decide)⟩

/-- Claim C4, counterexample: formalizing step (3) as the claim words it
(close only lines that open a quoted string without closing it,
`specStep3`), the claimed five-step pipeline differs observably from the
code on `x {"perguntas": {"q": "b"}}`: the claimed transform yields a
parseable `perguntas` object — so under the claim Tier 2 would succeed —
while the real cleanup appends a spurious quote, the reparse fails, and
the whole pipeline ends in the diagnostic dict. -/
theorem claim_C4_counterexample :
    specC4Transform "x \x7b\"perguntas\": \x7b\"q\": \"b\"\x7d\x7d" ≠
      cleanTransform "x \x7b\"perguntas\": \x7b\"q\": \"b\"\x7d\x7d" ∧
    json_loadsL (specC4Transform "x \x7b\"perguntas\": \x7b\"q\": \"b\"\x7d\x7d") =
      some (.obj [("perguntas", .obj [("q", .str "b")])]) ∧
    pyIn "perguntas" (.obj [("perguntas", .obj [("q", .str "b")])]) = .ok true ∧
    validate_and_parse_json "x \x7b\"perguntas\": \x7b\"q\": \"b\"\x7d\x7d" =
      .ok (errorDict "x \x7b\"perguntas\": \x7b\"q\": \"b\"\x7d\x7d") := by
  refine ⟨by decide, rfl, rfl, rfl⟩

/-- Claim C4, amended: Tier 2 applies the five transformations in the
stated fixed order, each on the output of the previous — with step (3)
replaced by the actual behavior of src/main.py:50: append one closing
quote at the end of *every* line containing at least one double-quote
(`fixQuoteLine` applied linewise) — and then reparses the transformed
text with the same acceptance criterion as Tier 1 (parse succeeds and
`"perguntas" in result` is truthy without raising). -/
theorem claim_C4_amended (s : String) :
    cleanTransform s =
      subTrailComma (subCommaNl
        (joinNl ((splitNl (sliceBraces (pyStrip s.data))).map fixQuoteLine))) ∧
    (∀ v, tier2 s = .ok (some v) ↔ tier1 (String.mk (cleanTransform s)) = some v) := by
  constructor
  · unfold cleanTransform
    exact congrArg (fun t => subTrailComma (subCommaNl t))
      (subUGo_linewise _ _ (le_refl _))
  · intro v
    constructor
    · intro h
      unfold tier2 at h
      split at h
      · -- clean_and_fix_json s = some w
        rename_i w hc
        split at h
        · -- truthy w = true
          rename_i htr
          split at h
          · -- pyIn = .ok true
            rename_i hp
            have hwv : w = v := by simpa using h
            subst hwv
            unfold tier1
            have hload : json_loadsL (String.mk (cleanTransform s)).data = some w := hc
            simp [hload, hp]
          · simp at h
          · simp at h
        · simp at h
      · simp at h
    · intro h
      unfold tier1 at h
      cases hj : json_loadsL (String.mk (cleanTransform s)).data with
      | none => rw [hj] at h; cases h
      | some r =>
        rw [hj] at h
        simp only at h
        cases hp : pyIn "perguntas" r with
        | error e => rw [hp] at h; cases h
        | ok b =>
          cases b with
          | false => rw [hp] at h; cases h
          | true =>
            rw [hp] at h
            have hrv : r = v := by simpa using h
            subst hrv
            have hc : clean_and_fix_json s = some r := hj
            unfold tier2
            simp [hc, pyIn_perguntas_truthy r hp, hp]


/-- Claim C10: for every Success outcome of the pipeline — a Tier-1
success, `tier1 s = some v` — running the pipeline again on the
serialized JSON form `dumps v` of that outcome yields the same value
`v`: the recovery is round-trip stable on its own successful output.
The proof runs on the well-formedness invariant of the parser image
(distinct dict keys, genuine number lexemes) and the round-trip theorem
`rtAll` for the serializer. -/
theorem claim_C10_roundtrip (s : String) (v : JsonValue) (h : tier1 s = some v) :
    validate_and_parse_json (dumps v) = .ok v := by
  unfold tier1 at h
  split at h
  · rename_i r heq
    split at h
    · rename_i htrue
      have hrv : r = v := Option.some.inj h
      subst hrv
      have hwf : WF r := json_loadsL_wf s.data r heq
      have hrt : json_loadsL (dumpsV r) = some r := json_loads_dumps r hwf
      have ht1 : tier1 (dumps r) = some r := by
        unfold tier1
        have hd : (dumps r).data = dumpsV r := rfl
        rw [hd, hrt]
        show (match pyIn "perguntas" r with | Except.ok true => some r | _ => none) = some r
        rw [htrue]
      unfold validate_and_parse_json
      rw [ht1]
    · cases h
  · cases h

/-- Witness for C10 at the concrete Tier-1 success
`{"perguntas": {"pergunta_1": "A?"}}`. -/
theorem claim_C10_witness :
    tier1 "\x7b\"perguntas\": \x7b\"pergunta_1\": \"A?\"\x7d\x7d" =
      some (JsonValue.obj [("perguntas", JsonValue.obj [("pergunta_1", JsonValue.str "A?")])]) ∧
    validate_and_parse_json
      (dumps (JsonValue.obj
        [("perguntas", JsonValue.obj [("pergunta_1", JsonValue.str "A?")])])) =
      .ok (JsonValue.obj [("perguntas", JsonValue.obj [("pergunta_1", JsonValue.str "A?")])]) :=
  ⟨by rfl,
   claim_C10_roundtrip "\x7b\"perguntas\": \x7b\"pergunta_1\": \"A?\"\x7d\x7d" _ (by rfl)⟩
